import Mathlib

/-!
Verification development for the cash-flow-analyzer repository.

The first part embeds `cash_flow_analyzer.py` (class `CashFlowAnalyzer`):
the ledger is a pandas DataFrame whose claim-relevant columns are `date`,
`amount` and optionally `type`; machine floats are modelled as `Rat` and a
missing value (NaN) as `none : Option Rat`.  The later parts embed the text
normalizer and the JSON response parsing of `pdf_extractor.py`.
-/

set_option maxRecDepth 10000

namespace CashFlow

/-- A calendar date as stored in the `date` column after `pd.to_datetime`. -/
structure Date where
  year : Nat
  month : Nat
  day : Nat
deriving DecidableEq, Repr

/-- A `year_month` bucket, the pair (year, month); `strftime('%Y-%m')` is an
order-preserving injective encoding of this pair for calendar data, so the
string key of the source is modelled by the pair itself. -/
abbrev YM := Nat × Nat

/-- Chronological (lexicographic) comparison of dates, as pandas compares
datetime values. -/
def dateLeB (a b : Date) : Bool :=
  decide (a.year < b.year) ||
    (decide (a.year = b.year) &&
      (decide (a.month < b.month) ||
        (decide (a.month = b.month) && decide (a.day ≤ b.day))))

/-- Chronological comparison of `year_month` buckets. -/
def ymLeB (a b : YM) : Bool :=
  decide (a.1 < b.1) || (decide (a.1 = b.1) && decide (a.2 ≤ b.2))

/-- A raw cell of the `amount` column before `pd.to_numeric(errors='coerce')`:
either a value the coercion turns into a number, or a cell (malformed string,
missing value, ...) on which the coercion fails. -/
inductive RawVal where
  | num (q : Rat)
  | invalid
deriving DecidableEq, Repr

/-- `pd.to_numeric(errors='coerce')` on one cell: numbers pass through,
anything un-coercible becomes NaN (modelled as `none`). -/
def toNumeric : RawVal → Option Rat
  | .num q => some q
  | .invalid => none

/-- One row of the raw DataFrame handed to `load_data`.  The `type` field is
the cell of the `type` column when that column exists (see `RawLedger.hasType`);
a `none` models a NaN cell. -/
structure RawRow where
  date : Date
  amount : RawVal
  type : Option String
deriving DecidableEq, Repr

/-- The raw DataFrame: its rows plus the fact of whether a `type` column is
present at all (`'type' in self.transactions.columns`). -/
structure RawLedger where
  rows : List RawRow
  hasType : Bool
deriving DecidableEq, Repr

/-- A row after `preprocess_data`: coerced amount, derived `year`, `month`
and `year_month` columns. -/
structure CleanRow where
  date : Date
  amount : Option Rat
  type : Option String
  year : Nat
  month : Nat
  yearMonth : YM
deriving DecidableEq, Repr

/-- The absolute value on rationals (`abs(...)` of numpy/pandas), written as
an explicit conditional. -/
def ratAbs (q : Rat) : Rat := if q < 0 then -q else q

/-- The per-row effect of `preprocess_data` (lines 42-57): derive
`month`/`year`/`year_month` from the date, coerce the amount with
`pd.to_numeric(errors='coerce')`, and - only when a `type` column exists -
force `amount = -abs(amount)` on `type == 'debit'` rows and
`amount = abs(amount)` on `type == 'credit'` rows.  `-abs`/`abs` of NaN is
NaN, hence `Option.map`. -/
def cleanRow (hasType : Bool) (r : RawRow) : CleanRow :=
  let a := toNumeric r.amount
  let ty := if hasType then r.type else none
  let a' :=
    if hasType then
      if ty = some "debit" then a.map (fun q => -ratAbs q)
      else if ty = some "credit" then a.map (fun q => ratAbs q)
      else a
    else a
  { date := r.date, amount := a', type := ty,
    year := r.date.year, month := r.date.month,
    yearMonth := (r.date.year, r.date.month) }

/-- The clean ledger produced from a raw one by `preprocess_data`. -/
def cleanOf (L : RawLedger) : List CleanRow := L.rows.map (cleanRow L.hasType)

/-- The error raised by `preprocess_data` / `analyze_cash_flow` on an empty
DataFrame: `ValueError("No transaction data loaded. Call load_data() first.")`.
The spec names this condition `EmptyLedgerError`. -/
inductive AnalyzerErr where
  | noData
deriving DecidableEq, Repr

instance {ε α : Type} [DecidableEq ε] [DecidableEq α] :
    DecidableEq (Except ε α) := fun a b =>
  match a, b with
  | .error e, .error f =>
    if h : e = f then isTrue (by rw [h]) else isFalse (fun hc => h (by injection hc))
  | .ok x, .ok y =>
    if h : x = y then isTrue (by rw [h]) else isFalse (fun hc => h (by injection hc))
  | .error _, .ok _ => isFalse (fun hc => by injection hc)
  | .ok _, .error _ => isFalse (fun hc => by injection hc)

/-- `preprocess_data` (lines 36-59): raises on an empty ledger, otherwise
cleans every row. -/
def preprocessData (L : RawLedger) : Except AnalyzerErr (List CleanRow) :=
  if L.rows.isEmpty then .error .noData else .ok (cleanOf L)

/-- `transactions['amount'] > 0` on one cell; NaN compares as false. -/
def isPos (a : Option Rat) : Bool :=
  match a with
  | some q => decide (0 < q)
  | none => false

/-- `transactions['amount'] < 0` on one cell; NaN compares as false. -/
def isNeg (a : Option Rat) : Bool :=
  match a with
  | some q => decide (q < 0)
  | none => false

/-- A pandas column sum with the default `skipna=True`: NaN cells contribute
nothing (an all-NaN column sums to 0). -/
def sumValid (xs : List (Option Rat)) : Rat := (xs.filterMap id).sum

/-- The rows selected by `transactions[transactions['amount'] > 0]`. -/
def posRows (cs : List CleanRow) : List CleanRow := cs.filter (fun r => isPos r.amount)

/-- The rows selected by `transactions[transactions['amount'] < 0]`. -/
def negRows (cs : List CleanRow) : List CleanRow := cs.filter (fun r => isNeg r.amount)

/-- The index of `...[amount > 0].groupby('year_month')`: the distinct
`year_month` keys among positive-amount rows. -/
def incomeKeys (cs : List CleanRow) : List YM := ((posRows cs).map (·.yearMonth)).dedup

/-- The grouped sum `income[ym]`: sum of the positive amounts of month `ym`. -/
def incomeSum (cs : List CleanRow) (ym : YM) : Rat :=
  sumValid (((posRows cs).filter (fun r => r.yearMonth = ym)).map (·.amount))

/-- The index of `...[amount < 0].groupby('year_month')`. -/
def expenseKeys (cs : List CleanRow) : List YM := ((negRows cs).map (·.yearMonth)).dedup

/-- The grouped value `expenses[ym]`: absolute value of the sum of the
negative amounts of month `ym` (`.sum().abs()`). -/
def expenseSum (cs : List CleanRow) (ym : YM) : Rat :=
  ratAbs (sumValid (((negRows cs).filter (fun r => r.yearMonth = ym)).map (·.amount)))

/-- Sorting a list of month keys, as `sorted(...)` sorts the `'%Y-%m'`
strings chronologically. -/
def sortYM (ks : List YM) : List YM :=
  List.insertionSort (fun a b => ymLeB a b = true) ks

/-- Line 83: `sorted(list(set(income.index) | set(expenses.index)))` - the
sorted union of months having income with months having expenses. -/
def allMonths (cs : List CleanRow) : List YM :=
  sortYM ((incomeKeys cs ++ expenseKeys cs).dedup)

/-- Round-half-to-even to an integer, as numpy/pandas rounding does. -/
def roundHalfEven (q : Rat) : Int :=
  let f := ⌊q⌋
  let r := q - f
  if r < 1/2 then f
  else if 1/2 < r then f + 1
  else if f % 2 = 0 then f else f + 1

/-- `Series.round(2)`: round half to even at two decimal places. -/
def round2 (q : Rat) : Rat := (roundHalfEven (q * 100) : Rat) / 100

/-- One row of the `monthly_income_vs_expenses` view. -/
structure IncExpRow where
  yearMonth : YM
  income : Rat
  expenses : Rat
  savings : Rat
  savingsRate : Rat
deriving DecidableEq, Repr

/-- The left-merge of `all_months` with the grouped income followed by
`fillna(0)`: months absent from the income index get 0. -/
def incomeAt (cs : List CleanRow) (ym : YM) : Rat :=
  if ym ∈ incomeKeys cs then incomeSum cs ym else 0

/-- The left-merge with the grouped expenses followed by `fillna(0)`. -/
def expenseAt (cs : List CleanRow) (ym : YM) : Rat :=
  if ym ∈ expenseKeys cs then expenseSum cs ym else 0

/-- Lines 84-91: the merged row of `monthly_income_vs_expenses` for month
`ym`.  Line 90 computes the raw rounded division (on floats a 0 income gives
inf/NaN there); line 91 then overrides `savings_rate` with 0 wherever
`income == 0`, which the `if` reproduces exactly. -/
def mkIncExpRow (cs : List CleanRow) (ym : YM) : IncExpRow :=
  let inc := incomeAt cs ym
  let exp := expenseAt cs ym
  let sav := inc - exp
  let rate := round2 (sav / inc * 100)
  ⟨ym, inc, exp, sav, if inc = 0 then 0 else rate⟩

/-- The `monthly_income_vs_expenses` view (lines 78-91). -/
def monthlyIncomeVsExpenses (cs : List CleanRow) : List IncExpRow :=
  (allMonths cs).map (mkIncExpRow cs)

/-- One row of the `monthly_cash_flow` view. -/
structure MonthlyFlowRow where
  yearMonth : YM
  netFlow : Rat
  numTransactions : Nat
deriving DecidableEq, Repr

/-- The (sorted) group keys of `transactions.groupby('year_month')`. -/
def cfKeys (cs : List CleanRow) : List YM := sortYM ((cs.map (·.yearMonth)).dedup)

/-- Lines 72-76: `groupby('year_month').agg({'amount': ['sum','count']})`.
Pandas `sum` skips NaN and pandas `count` counts the non-NaN cells of the
aggregated column only. -/
def monthlyCashFlow (cs : List CleanRow) : List MonthlyFlowRow :=
  (cfKeys cs).map (fun ym =>
    let amts := (cs.filter (fun r => r.yearMonth = ym)).map (·.amount)
    ⟨ym, sumValid amts, (amts.filterMap id).length⟩)

/-- `sort_values('date')` on the clean rows (line 105). -/
def sortByDate (cs : List CleanRow) : List CleanRow :=
  List.insertionSort (fun a b => dateLeB a.date b.date = true) cs

/-- `Series.cumsum()` with its default NaN handling: a NaN cell yields NaN at
its own position and is skipped by the running total thereafter. -/
def cumsumAux (acc : Rat) : List (Option Rat) → List (Option Rat)
  | [] => []
  | some q :: rest => some (acc + q) :: cumsumAux (acc + q) rest
  | none :: rest => none :: cumsumAux acc rest

/-- The `running_balance` view (lines 104-106, 114): date-sorted rows paired
with the cumulative sum of their amounts. -/
def runningBalanceView (cs : List CleanRow) : List (Date × Option Rat) :=
  let s := sortByDate cs
  (s.map (·.date)).zip (cumsumAux 0 (s.map (·.amount)))

/-- The claim-relevant scalar fields of the `summary` dict (lines 115-126).
The category- and mean-based fields are not referenced by any property below
and are omitted from the record. -/
structure Summary where
  totalIncome : Rat
  totalExpenses : Rat
  netFlow : Rat
  transactionCount : Nat
deriving DecidableEq, Repr

/-- Lines 116-118 and 124 of `analyze_cash_flow`. -/
def summaryOf (cs : List CleanRow) : Summary :=
  { totalIncome := sumValid ((posRows cs).map (·.amount))
    totalExpenses := ratAbs (sumValid ((negRows cs).map (·.amount)))
    netFlow := sumValid (cs.map (·.amount))
    transactionCount := cs.length }

/-- The claim-relevant views of `analysis_results`. -/
structure Bundle where
  monthlyCashFlow : List MonthlyFlowRow
  monthlyIncomeVsExpenses : List IncExpRow
  runningBalance : List (Date × Option Rat)
  summary : Summary
deriving DecidableEq, Repr

/-- The views `analyze_cash_flow` stores on success. -/
def mkBundle (cs : List CleanRow) : Bundle :=
  ⟨monthlyCashFlow cs, monthlyIncomeVsExpenses cs, runningBalanceView cs, summaryOf cs⟩

/-- `analyze_cash_flow` (lines 61-129): raises the empty-data `ValueError`
on an empty ledger, otherwise computes the aggregate views. -/
def analyzeCashFlow (cs : List CleanRow) : Except AnalyzerErr Bundle :=
  if cs.isEmpty then .error .noData else .ok (mkBundle cs)

/-- The linear index of a calendar month. -/
def monthIdx (ym : YM) : Nat := ym.1 * 12 + (ym.2 - 1)

/-- The month with a given linear index. -/
def ofMonthIdx (n : Nat) : YM := (n / 12, n % 12 + 1)

/-- Modelled from the spec: the list of every calendar month between `a` and
`b` inclusive ("for all months between the minimum and maximum transaction
date").  The source computes a similar `pd.date_range(..., freq='MS')` at
line 69 but never uses it. -/
def monthsBetween (a b : YM) : List YM :=
  (List.range (monthIdx b + 1 - monthIdx a)).map (fun i => ofMonthIdx (monthIdx a + i))

/-- Month `ym` has at least one positive-amount or one negative-amount row. -/
def ymActive (cs : List CleanRow) (ym : YM) : Prop :=
  (∃ r ∈ cs, r.yearMonth = ym ∧ isPos r.amount = true) ∨
  (∃ r ∈ cs, r.yearMonth = ym ∧ isNeg r.amount = true)

instance (cs : List CleanRow) (ym : YM) : Decidable (ymActive cs ym) := by
  unfold ymActive; infer_instance

/-- Example ledger: activity in 2024-01 and 2024-03 but none in 2024-02. -/
def exC1gap : RawLedger :=
  ⟨[⟨⟨2024, 1, 15⟩, .num 10, some "credit"⟩,
    ⟨⟨2024, 3, 15⟩, .num 10, some "credit"⟩], true⟩

/-- Example ledger with income in one month and an expense in the next. -/
def exC1pair : RawLedger :=
  ⟨[⟨⟨2024, 1, 5⟩, .num 50, some "credit"⟩,
    ⟨⟨2024, 2, 6⟩, .num (-20), some "debit"⟩], true⟩

/-- Example ledger whose raw credit amount carries the wrong sign. -/
def exC2neg : RawLedger := ⟨[⟨⟨2024, 1, 1⟩, .num (-7), some "credit"⟩], true⟩

/-- The cleaned row of `exC2neg`. -/
def exC2row : CleanRow := cleanRow true ⟨⟨2024, 1, 1⟩, .num (-7), some "credit"⟩

/-- Example ledger whose only month has expenses and no income. -/
def exC5exp : RawLedger := ⟨[⟨⟨2024, 2, 3⟩, .num 12, some "debit"⟩], true⟩

/-- The 2024-02 row of the view of `exC5exp`. -/
def exC5row : IncExpRow := mkIncExpRow (cleanOf exC5exp) (2024, 2)

/-- Example ledger whose latest-dated row has an un-coercible amount. -/
def exC6nan : RawLedger :=
  ⟨[⟨⟨2024, 1, 1⟩, .num 5, some "credit"⟩,
    ⟨⟨2024, 1, 2⟩, .invalid, some "debit"⟩], true⟩

/-- Example ledger whose latest-dated row has a valid amount. -/
def exC6ok : RawLedger :=
  ⟨[⟨⟨2024, 1, 1⟩, .num 4, some "credit"⟩,
    ⟨⟨2024, 1, 2⟩, .num (-1), some "debit"⟩], true⟩

/-- Example ledger with one valid-amount and one bad-amount row in a month. -/
def exC8bad : RawLedger :=
  ⟨[⟨⟨2024, 5, 1⟩, .num 7, none⟩, ⟨⟨2024, 5, 2⟩, .invalid, none⟩], false⟩

/-- A second ledger of the same shape for the positive direction. -/
def exC8mix : RawLedger :=
  ⟨[⟨⟨2024, 6, 1⟩, .num 9, none⟩, ⟨⟨2024, 6, 2⟩, .invalid, none⟩], false⟩

/-- Example ledger lacking a `type` column, with a negative raw amount. -/
def exC10raw : RawLedger :=
  ⟨[⟨⟨2024, 3, 4⟩, .num (-8), some "credit"⟩,
    ⟨⟨2024, 3, 5⟩, .invalid, some "debit"⟩], false⟩

/-!
### Text normalizer

Embedding of `_preprocess_text` (`pdf_extractor.py` lines 73-85): four
`re.sub` passes - strip `Page \d+ of \d+`, collapse `\s+` runs to a single
space, rewrite `l<digit>` to `1<digit>` and `O<digit>` to `0<digit>`.  Each
pass replaces non-overlapping leftmost matches and continues scanning after
the replaced region, exactly as `re.sub` does.  `\s` and `\d` are modelled
on their ASCII ranges, which cover the bank-statement text the function is
given. -/

/-- Python `\s` on ASCII text: space, tab, newline, carriage return,
vertical tab, form feed. -/
def isWsChar (c : Char) : Bool :=
  c = ' ' || c = '\t' || c = '\n' || c = '\r' || c = '\x0b' || c = '\x0c'

/-- Consume a maximal run of decimal digits (the tail of a greedy `\d+`
whose first digit was already checked). -/
def chompDigits : List Char → List Char
  | c :: rest => if c.isDigit then chompDigits rest else c :: rest
  | [] => []

/-- Match `<space>of<space>\d+`, the tail of the page pattern, returning the
remainder after the matched text. -/
def matchOfTail : List Char → Option (List Char)
  | ' ' :: 'o' :: 'f' :: ' ' :: c :: rest =>
    if c.isDigit then some (chompDigits rest) else none
  | _ => none

/-- Match the regex `Page \d+ of \d+` at the head of the text, returning the
remainder after the match.  The greedy `\d+` is maximal-munch; since the
character after the first digit run must be a space, no backtracking case is
lost. -/
def matchPage : List Char → Option (List Char)
  | 'P' :: 'a' :: 'g' :: 'e' :: ' ' :: c :: rest =>
    if c.isDigit then matchOfTail (chompDigits rest) else none
  | _ => none

/-- The scan of `re.sub(r'Page \d+ of \d+', '', text)`: at each position try
the pattern; on a match drop the matched text and continue after it.  The
fuel argument only serves termination; `fuel = cs.length` always suffices
because a match consumes at least one character. -/
def removePageRefsAux : Nat → List Char → List Char
  | 0, cs => cs
  | _ + 1, [] => []
  | fuel + 1, c :: rest =>
    match matchPage (c :: rest) with
    | some rem => removePageRefsAux fuel rem
    | none => c :: removePageRefsAux fuel rest

/-- `re.sub(r'Page \d+ of \d+', '', text)`. -/
def removePageRefs (cs : List Char) : List Char := removePageRefsAux cs.length cs

/-- The scan of `re.sub(r'\s+', ' ', text)`: the flag records whether the
scanner is inside a whitespace run whose single `' '` was already emitted. -/
def collapseWsGo : Bool → List Char → List Char
  | _, [] => []
  | inWs, c :: rest =>
    if isWsChar c then
      if inWs then collapseWsGo true rest else ' ' :: collapseWsGo true rest
    else c :: collapseWsGo false rest

/-- `re.sub(r'\s+', ' ', text)`: every maximal whitespace run becomes one
space. -/
def collapseWs (cs : List Char) : List Char := collapseWsGo false cs

/-- `re.sub(r'a(\d)', r'b\1', text)` for a single letter `a`: a letter
immediately followed by a digit is rewritten to `b`, and the scan continues
after the digit (matches are non-overlapping). -/
def fixLetterDigit (a b : Char) : List Char → List Char
  | c :: d :: rest =>
    if c = a ∧ d.isDigit then b :: d :: fixLetterDigit a b rest
    else c :: fixLetterDigit a b (d :: rest)
  | cs => cs

/-- `_preprocess_text` on the character list: strip page boilerplate,
collapse whitespace, repair `l<digit>` to `1<digit>` and `O<digit>` to
`0<digit>`, in source order. -/
def preprocessTextL (cs : List Char) : List Char :=
  fixLetterDigit 'O' '0' (fixLetterDigit 'l' '1' (collapseWs (removePageRefs cs)))

/-- `_preprocess_text` (lines 73-85). -/
def preprocessText (s : String) : String := ⟨preprocessTextL s.toList⟩

/-- Cleanliness invariant of collapsed text: every whitespace character is a
plain space and no two adjacent characters are both whitespace. -/
def CleanText : List Char → Prop
  | [] => True
  | [c] => isWsChar c = false ∨ c = ' '
  | c :: d :: rest =>
    (isWsChar c = false ∨ c = ' ') ∧ ¬(isWsChar c = true ∧ isWsChar d = true) ∧
      CleanText (d :: rest)

/-- The first character, if any, is not whitespace. -/
def headNonWs : List Char → Prop
  | [] => True
  | c :: _ => isWsChar c = false

/-!
### JSON response parsing

Embedding of `_parse_gpt_response` and `_fix_truncated_json`
(`pdf_extractor.py` lines 154-239).  `json.loads` is modelled by a recursive
descent parser for the JSON fragment the extraction contract uses: a
top-level array of flat transaction objects, or a top-level object whose
member values are scalars or arrays of flat objects; scalars are strings
without backslash escapes, decimal numerals without exponents, booleans and
null.  On this fragment the parser accepts and rejects exactly as
`json.loads` does, which is what the claims exercise. -/

/-- A parsed JSON value, the result of `json.loads`. -/
inductive JVal where
  | jnull
  | jbool (b : Bool)
  | jnum (q : Rat)
  | jstr (s : String)
  | jarr (elems : List JVal)
  | jobj (members : List (String × JVal))
deriving Repr

/-- JSON inter-token whitespace. -/
def isJsonWs (c : Char) : Bool := c = ' ' || c = '\t' || c = '\n' || c = '\r'

/-- Skip leading JSON whitespace. -/
def skipJsonWs : List Char → List Char
  | c :: rest => if isJsonWs c then skipJsonWs rest else c :: rest
  | [] => []

/-- Parse the body of a string literal after its opening quote, up to the
closing quote.  Escape sequences are outside the modelled fragment, so a
backslash fails the parse rather than being silently misread. -/
def parseStringBody : List Char → Option (List Char × List Char)
  | [] => none
  | c :: rest =>
    if c = '"' then some ([], rest)
    else if c = '\\' then none
    else
      match parseStringBody rest with
      | some (s, rem) => some (c :: s, rem)
      | none => none

/-- Consume a digit run, returning accumulated value, digit count and rest. -/
def parseDigitsAux (acc cnt : Nat) : List Char → Nat × Nat × List Char
  | c :: rest =>
    if c.isDigit then parseDigitsAux (acc * 10 + (c.toNat - 48)) (cnt + 1) rest
    else (acc, cnt, c :: rest)
  | [] => (acc, cnt, [])

/-- Parse an unsigned decimal numeral with optional fraction part. -/
def parseNumAfterSign : List Char → Option (Rat × List Char)
  | c :: rest =>
    if c.isDigit then
      match parseDigitsAux (c.toNat - 48) 1 rest with
      | (n, _, rem) =>
        match rem with
        | d :: rest2 =>
          if d = '.' then
            match rest2 with
            | e :: rest3 =>
              if e.isDigit then
                match parseDigitsAux (e.toNat - 48) 1 rest3 with
                | (f, fc, rem2) => some ((n : Rat) + (f : Rat) / (10 : Rat) ^ fc, rem2)
              else none
            | [] => none
          else some ((n : Rat), d :: rest2)
        | [] => some ((n : Rat), [])
    else none
  | [] => none

/-- Parse a JSON number with optional leading minus. -/
def parseNumber : List Char → Option (Rat × List Char)
  | [] => none
  | c :: rest =>
    if c = '-' then (parseNumAfterSign rest).map (fun qr => (-qr.1, qr.2))
    else parseNumAfterSign (c :: rest)

/-- Parse a scalar JSON value: string, null, true, false or number. -/
def parseScalar : List Char → Option (JVal × List Char)
  | [] => none
  | c :: rest =>
    if c = '"' then (parseStringBody rest).map (fun sr => (JVal.jstr ⟨sr.1⟩, sr.2))
    else if c = 'n' then
      match rest with
      | 'u' :: 'l' :: 'l' :: r => some (.jnull, r)
      | _ => none
    else if c = 't' then
      match rest with
      | 'r' :: 'u' :: 'e' :: r => some (.jbool true, r)
      | _ => none
    else if c = 'f' then
      match rest with
      | 'a' :: 'l' :: 's' :: 'e' :: r => some (.jbool false, r)
      | _ => none
    else (parseNumber (c :: rest)).map (fun qr => (JVal.jnum qr.1, qr.2))

/-- Parse one object member (key, colon, value) with the given value
parser. -/
def parseMember (pv : List Char → Option (JVal × List Char)) (cs : List Char) :
    Option ((String × JVal) × List Char) :=
  match skipJsonWs cs with
  | [] => none
  | c :: rest =>
    if c = '"' then
      match parseStringBody rest with
      | some (k, rem) =>
        match skipJsonWs rem with
        | [] => none
        | d :: rem2 =>
          if d = ':' then
            match pv (skipJsonWs rem2) with
            | some (v, rem3) => some ((⟨k⟩, v), rem3)
            | none => none
          else none
      | none => none
    else none

/-- Parse a non-empty comma-separated member list up to and including the
closing brace.  The fuel only serves termination; callers pass more fuel
than the input length. -/
def parseMembersAux (pv : List Char → Option (JVal × List Char)) :
    Nat → List Char → Option (List (String × JVal) × List Char)
  | 0, _ => none
  | fuel + 1, cs =>
    match parseMember pv cs with
    | some (kv, rem) =>
      match skipJsonWs rem with
      | [] => none
      | x :: rem2 =>
        if x = ',' then
          match parseMembersAux pv fuel rem2 with
          | some (kvs, rem3) => some (kv :: kvs, rem3)
          | none => none
        else if x = '\x7d' then some ([kv], rem2)
        else none
    | none => none

/-- Parse an object whose member values are read by `pv`. -/
def parseObjWith (pv : List Char → Option (JVal × List Char)) :
    List Char → Option (JVal × List Char)
  | [] => none
  | c :: rest =>
    if c = '\x7b' then
      match skipJsonWs rest with
      | [] => none
      | d :: rem =>
        if d = '\x7d' then some (.jobj [], rem)
        else
          match parseMembersAux pv ((d :: rem).length + 1) (d :: rem) with
          | some (kvs, rem2) => some (.jobj kvs, rem2)
          | none => none
    else none

/-- Parse a flat object: member values are scalars. -/
def parseFlatObj (cs : List Char) : Option (JVal × List Char) :=
  parseObjWith parseScalar cs

/-- Parse a non-empty comma-separated element list up to and including the
closing bracket. -/
def parseElemsAux (pe : List Char → Option (JVal × List Char)) :
    Nat → List Char → Option (List JVal × List Char)
  | 0, _ => none
  | fuel + 1, cs =>
    match pe cs with
    | some (v, rem) =>
      match skipJsonWs rem with
      | [] => none
      | x :: rem2 =>
        if x = ',' then
          match parseElemsAux pe fuel (skipJsonWs rem2) with
          | some (vs, rem3) => some (v :: vs, rem3)
          | none => none
        else if x = ']' then some ([v], rem2)
        else none
    | none => none

/-- Parse an array whose elements are read by `pe`. -/
def parseArrWith (pe : List Char → Option (JVal × List Char)) :
    List Char → Option (JVal × List Char)
  | [] => none
  | c :: rest =>
    if c = '[' then
      match skipJsonWs rest with
      | [] => none
      | d :: rem =>
        if d = ']' then some (.jarr [], rem)
        else
          match parseElemsAux pe ((d :: rem).length + 1) (d :: rem) with
          | some (vs, rem2) => some (.jarr vs, rem2)
          | none => none
    else none

/-- An array element of the transaction fragment: a flat object or a
scalar. -/
def parseElem1 : List Char → Option (JVal × List Char)
  | [] => none
  | c :: rest =>
    if c = '\x7b' then parseFlatObj (c :: rest)
    else parseScalar (c :: rest)

/-- A member value of the top-level object: flat object, array of elements,
or scalar. -/
def parseVal1 : List Char → Option (JVal × List Char)
  | [] => none
  | c :: rest =>
    if c = '\x7b' then parseFlatObj (c :: rest)
    else if c = '[' then parseArrWith parseElem1 (c :: rest)
    else parseScalar (c :: rest)

/-- A top-level JSON value of the fragment. -/
def parseTopVal : List Char → Option (JVal × List Char)
  | [] => none
  | c :: rest =>
    if c = '\x7b' then parseObjWith parseVal1 (c :: rest)
    else if c = '[' then parseArrWith parseElem1 (c :: rest)
    else parseScalar (c :: rest)

/-- `json.loads` on the modelled fragment: a single top-level value with
nothing but whitespace after it. -/
def jsonLoads (s : String) : Option JVal :=
  match parseTopVal (skipJsonWs s.toList) with
  | some (v, rem) => if (skipJsonWs rem).isEmpty then some v else none
  | none => none

/-- `incomplete_json[:rfind(pat)+1]`: the prefix of the text up to and
including the first character of the last occurrence of `pat`, or `none`
when `pat` does not occur (`rfind` returning -1). -/
def cutLast (pat : List Char) : List Char → Option (List Char)
  | [] => none
  | c :: rest =>
    match cutLast pat rest with
    | some r => some (c :: r)
    | none => if pat.isPrefixOf (c :: rest) then some [c] else none

/-- Python's `in` on strings: substring containment. -/
def hasSubstr (pat : List Char) : List Char → Bool
  | [] => pat.isPrefixOf []
  | c :: rest => pat.isPrefixOf (c :: rest) || hasSubstr pat rest

/-- The characters of the literal `transactions`. -/
def transactionsLit : List Char := "transactions".toList

/-- `_fix_truncated_json` (lines 219-239): cut at the last occurrence of
brace-comma (else the last closing brace, else raise `ValueError`, modelled
as `none`); then re-close with bracket-newline-brace when the raw text
contains the substring `transactions`, else with a single bracket. -/
def fixTruncatedJson (cs : List Char) : Option (List Char) :=
  let cut :=
    match cutLast ['\x7d', ','] cs with
    | some r => some r
    | none => cutLast ['\x7d'] cs
  match cut with
  | none => none
  | some r =>
    if hasSubstr transactionsLit cs then
      some (r ++ (']' :: '\n' :: ['\x7d']))
    else
      some (r ++ [']'])

/-- The fields of the service response that `_parse_gpt_response` reads:
`choices[0].message.content` and `choices[0].finish_reason`. -/
structure GptResponse where
  content : String
  finishReason : Option String

/-- The Python exceptions that can leave `_parse_gpt_response`:
`json.JSONDecodeError` (the spec's `MalformedExtractionResponse`) and the
`AttributeError` raised by calling `.get` on a non-dict. -/
inductive PyErr where
  | jsonDecodeError
  | attributeError
deriving DecidableEq, Repr

/-- `transactions = data.get('transactions', [])` followed by
`pd.DataFrame(transactions)`: only a dict has `.get`, so any non-object
value raises `AttributeError` (the `isinstance(data, list)` fallback of
line 167 is unreachable, since line 166 has already raised by then).  A
missing key defaults to the empty list; a `null` value gives an empty
frame; other member shapes are outside the modelled response fragment and
also give an empty row list here. -/
def extractTransactions : JVal → Except PyErr (List JVal)
  | .jobj kvs =>
    match kvs.lookup "transactions" with
    | some (.jarr xs) => .ok xs
    | some _ => .ok []
    | none => .ok []
  | _ => .error .attributeError

/-- `_parse_gpt_response` (lines 154-217), returning the list of transaction
rows that populate the DataFrame.  On a parse failure with
`finish_reason == 'length'` it repairs and re-parses once; any exception in
that inner attempt - including the repair's `ValueError` and the
`AttributeError` on a repaired top-level array - is caught by
`except Exception` and the original decode error is re-raised. -/
def parseGptResponse (resp : GptResponse) : Except PyErr (List JVal) :=
  match jsonLoads resp.content with
  | some data => extractTransactions data
  | none =>
    if resp.finishReason = some "length" then
      match fixTruncatedJson resp.content.toList with
      | none => .error .jsonDecodeError
      | some fixed =>
        match jsonLoads ⟨fixed⟩ with
        | none => .error .jsonDecodeError
        | some data =>
          match extractTransactions data with
          | .error _ => .error .jsonDecodeError
          | .ok tx => .ok tx
    else .error .jsonDecodeError

/-- A scalar cell of a serialized transaction object: a string (rendered
without escapes), a signed decimal-digit numeral, or null. -/
inductive SVal where
  | str (v : String)
  | num (neg : Bool) (ds : List Char)
  | null
deriving DecidableEq

/-- A serialized transaction object: an association list of fields. -/
abbrev SObj := List (String × SVal)

/-- The numeric value of a digit run. -/
def digitsVal (ds : List Char) : Nat := ds.foldl (fun a c => a * 10 + (c.toNat - 48)) 0

/-- The JSON value a serialized scalar denotes. -/
def svalToJ : SVal → JVal
  | .str v => .jstr v
  | .num neg ds => .jnum (if neg then -(digitsVal ds : Rat) else (digitsVal ds : Rat))
  | .null => .jnull

/-- Serialize a scalar. -/
def serSVal : SVal → List Char
  | .str v => '"' :: v.toList ++ ['"']
  | .num neg ds => (if neg then ['-'] else []) ++ ds
  | .null => 'n' :: 'u' :: 'l' :: ['l']

/-- Serialize one `key:value` member. -/
def serMember (kv : String × SVal) : List Char :=
  '"' :: kv.1.toList ++ '"' :: ':' :: serSVal kv.2

/-- Serialize a comma-separated member list. -/
def serMembers : SObj → List Char
  | [] => []
  | [kv] => serMember kv
  | kv :: rest => serMember kv ++ ',' :: serMembers rest

/-- Serialize an object. -/
def serSObj (o : SObj) : List Char := '\x7b' :: serMembers o ++ ['\x7d']

/-- Serialize a comma-separated object list. -/
def serObjs : List SObj → List Char
  | [] => []
  | [o] => serSObj o
  | o :: rest => serSObj o ++ ',' :: serObjs rest

/-- The opening of the wrapper response: brace, quoted `transactions` key,
colon, opening bracket. -/
def serWrapperPrefix : List Char := "\x7b\"transactions\":[".toList

/-- The JSON object a serialized transaction object denotes. -/
def sobjToJ (o : SObj) : JVal := .jobj (o.map (fun kv => (kv.1, svalToJ kv.2)))

/-- A character that can appear in a serialized string literal of the
fragment: not a quote, not a backslash, not a closing brace. -/
def GoodChar (c : Char) : Prop := c ≠ '"' ∧ c ≠ '\\' ∧ c ≠ '\x7d'

/-- A string all of whose characters are `GoodChar`. -/
def GoodStr (s : String) : Prop := ∀ c ∈ s.toList, GoodChar c

/-- A well-formed serialized scalar: good string, or non-empty digit run. -/
def GoodSVal : SVal → Prop
  | .str v => GoodStr v
  | .num _ ds => ds ≠ [] ∧ ∀ c ∈ ds, c.isDigit = true
  | .null => True

/-- A well-formed non-empty serialized object. -/
def GoodObj (o : SObj) : Prop :=
  o ≠ [] ∧ ∀ kv ∈ o, GoodStr kv.1 ∧ GoodSVal kv.2

instance (c : Char) : Decidable (GoodChar c) :=
  inferInstanceAs (Decidable (c ≠ '"' ∧ c ≠ '\\' ∧ c ≠ '\x7d'))

instance (s : String) : Decidable (GoodStr s) :=
  inferInstanceAs (Decidable (∀ c ∈ s.toList, GoodChar c))

instance (v : SVal) : Decidable (GoodSVal v) :=
  match v with
  | .str s => inferInstanceAs (Decidable (GoodStr s))
  | .num _ ds => inferInstanceAs (Decidable (ds ≠ [] ∧ ∀ c ∈ ds, c.isDigit = true))
  | .null => Decidable.isTrue trivial

instance (o : SObj) : Decidable (GoodObj o) :=
  inferInstanceAs (Decidable (o ≠ [] ∧ ∀ kv ∈ o, GoodStr kv.1 ∧ GoodSVal kv.2))

/-- The response content truncated strictly inside object `m` (0-based): the
wrapper opening, the first `m` complete objects, the separating comma, and a
proper prefix `p` of the next object's serialization. -/
def wrapperTrunc (os : List SObj) (m : Nat) (p : List Char) : List Char :=
  serWrapperPrefix ++ serObjs (os.take m) ++ ',' :: p

/-- The first character, if any, is not a decimal digit. -/
def headNotDigit : List Char → Prop
  | [] => True
  | c :: _ => c.isDigit = false

/-- The text may legally follow a serialized numeral: it does not start with
a digit or a dot. -/
def numBoundary : List Char → Prop
  | [] => True
  | c :: _ => c.isDigit = false ∧ c ≠ '.'

/-- The text follows a serialized member value inside an object: it starts
with a comma or a closing brace. -/
def sepHead : List Char → Prop
  | [] => False
  | c :: _ => c = ',' ∨ c = '\x7d'

/-- The shape of a proper prefix of a serialized object: empty, or an
opening brace followed by brace-free text. -/
def TruncPrefix (p : List Char) : Prop :=
  '\x7d' ∉ p ∧ (p = [] ∨ ∃ p', p = '\x7b' :: p')

section AnalyzerLemmas

/-- `ratAbs` of zero is zero. -/
@[simp] theorem ratAbs_zero : ratAbs 0 = 0 := rfl

/-- `ratAbs` is non-negative. -/
theorem ratAbs_nonneg (q : Rat) : 0 ≤ ratAbs q := by
  unfold ratAbs
  split
  · linarith
  · linarith

/-- `getLast?` skips the head when the tail is non-empty. -/
theorem getLast?_cons_ne {α : Type} (a : α) (l : List α) (h : l ≠ []) :
    (a :: l).getLast? = l.getLast? := by
  cases l with
  | nil => exact absurd rfl h
  | cons b m => exact List.getLast?_cons_cons

/-- `cumsumAux` preserves the number of rows. -/
theorem cumsumAux_length (acc : Rat) (xs : List (Option Rat)) :
    (cumsumAux acc xs).length = xs.length := by
  induction xs generalizing acc with
  | nil => rfl
  | cons x rest ih => cases x <;> simp [cumsumAux, ih]

/-- If the final cell of a column is a valid number, the final cell of its
cumulative sum is the skip-NaN total of the whole column (offset by `acc`). -/
theorem cumsumAux_getLast (xs : List (Option Rat)) (acc q : Rat)
    (h : xs.getLast? = some (some q)) :
    (cumsumAux acc xs).getLast? = some (some (acc + sumValid xs)) := by
  induction xs generalizing acc with
  | nil => simp at h
  | cons x rest ih =>
    cases rest with
    | nil =>
      cases x with
      | none => simp at h
      | some v =>
        simp only [List.getLast?_singleton, Option.some.injEq] at h
        simp [cumsumAux, sumValid, h]
    | cons y ys =>
      have hh : (y :: ys).getLast? = some (some q) := by
        rwa [List.getLast?_cons_cons] at h
      have hne : ∀ acc', cumsumAux acc' (y :: ys) ≠ [] := by
        intro acc' hcon
        have := cumsumAux_length acc' (y :: ys)
        rw [hcon] at this
        simp at this
      cases x with
      | none =>
        rw [show cumsumAux acc (none :: y :: ys) = none :: cumsumAux acc (y :: ys) from rfl,
          getLast?_cons_ne _ _ (hne acc), ih acc hh]
        simp [sumValid]
      | some v =>
        rw [show cumsumAux acc (some v :: y :: ys)
              = some (acc + v) :: cumsumAux (acc + v) (y :: ys) from rfl,
          getLast?_cons_ne _ _ (hne (acc + v)), ih (acc + v) hh]
        have hs : sumValid (some v :: y :: ys) = v + sumValid (y :: ys) := by
          simp [sumValid]
        rw [hs]
        congr 2
        ring

/-- In a duplicate-free list each value occurs once or not at all. -/
theorem countP_eq_ite_of_nodup {α : Type} [DecidableEq α] (l : List α)
    (h : l.Nodup) (a : α) :
    l.countP (fun x => decide (x = a)) = if a ∈ l then 1 else 0 := by
  induction l with
  | nil => simp
  | cons x xs ih =>
    rcases List.nodup_cons.1 h with ⟨hx, hxs⟩
    by_cases hxa : x = a
    · subst hxa
      simp [List.countP_cons, ih hxs, hx]
    · simp [List.countP_cons, ih hxs, hxa, Ne.symm hxa]

/-- Membership is preserved by `sortYM`. -/
theorem mem_sortYM (ks : List YM) (a : YM) : a ∈ sortYM ks ↔ a ∈ ks :=
  (List.perm_insertionSort (fun a b => ymLeB a b = true) ks).mem_iff

/-- `sortYM` preserves freedom from duplicates. -/
theorem nodup_sortYM (ks : List YM) (h : ks.Nodup) : (sortYM ks).Nodup :=
  ((List.perm_insertionSort (fun a b => ymLeB a b = true) ks).nodup_iff).2 h

/-- A month is in the income group index iff it has a positive-amount row. -/
theorem mem_incomeKeys (cs : List CleanRow) (ym : YM) :
    ym ∈ incomeKeys cs ↔ ∃ r ∈ cs, r.yearMonth = ym ∧ isPos r.amount = true := by
  simp only [incomeKeys, posRows, List.mem_dedup, List.mem_map, List.mem_filter]
  constructor
  · rintro ⟨r, ⟨hr, hp⟩, rfl⟩
    exact ⟨r, hr, rfl, hp⟩
  · rintro ⟨r, hr, rfl, hp⟩
    exact ⟨r, ⟨hr, hp⟩, rfl⟩

/-- A month is in the expense group index iff it has a negative-amount row. -/
theorem mem_expenseKeys (cs : List CleanRow) (ym : YM) :
    ym ∈ expenseKeys cs ↔ ∃ r ∈ cs, r.yearMonth = ym ∧ isNeg r.amount = true := by
  simp only [expenseKeys, negRows, List.mem_dedup, List.mem_map, List.mem_filter]
  constructor
  · rintro ⟨r, ⟨hr, hp⟩, rfl⟩
    exact ⟨r, hr, rfl, hp⟩
  · rintro ⟨r, hr, rfl, hp⟩
    exact ⟨r, ⟨hr, hp⟩, rfl⟩

/-- A month absent from the income index has a zero grouped income sum. -/
theorem incomeSum_eq_zero_of_not_mem (cs : List CleanRow) (ym : YM)
    (h : ym ∉ incomeKeys cs) : incomeSum cs ym = 0 := by
  have hnil : (posRows cs).filter (fun r => r.yearMonth = ym) = [] := by
    rw [List.filter_eq_nil_iff]
    intro r hr hy
    exact h ((mem_incomeKeys cs ym).2
      ⟨r, (List.mem_filter.1 hr).1, by simpa using hy, (List.mem_filter.1 hr).2⟩)
  simp [incomeSum, hnil, sumValid]

/-- A month absent from the expense index has a zero grouped expense sum. -/
theorem expenseSum_eq_zero_of_not_mem (cs : List CleanRow) (ym : YM)
    (h : ym ∉ expenseKeys cs) : expenseSum cs ym = 0 := by
  have hnil : (negRows cs).filter (fun r => r.yearMonth = ym) = [] := by
    rw [List.filter_eq_nil_iff]
    intro r hr hy
    exact h ((mem_expenseKeys cs ym).2
      ⟨r, (List.mem_filter.1 hr).1, by simpa using hy, (List.mem_filter.1 hr).2⟩)
  simp [expenseSum, hnil, sumValid]

/-- The merged-and-filled income column agrees with the grouped sum (which is
0 exactly when the month has no positive rows). -/
theorem incomeAt_eq_incomeSum (cs : List CleanRow) (ym : YM) :
    incomeAt cs ym = incomeSum cs ym := by
  unfold incomeAt
  by_cases h : ym ∈ incomeKeys cs
  · simp [h]
  · simp [h, incomeSum_eq_zero_of_not_mem cs ym h]

/-- The merged-and-filled expense column agrees with the grouped sum. -/
theorem expenseAt_eq_expenseSum (cs : List CleanRow) (ym : YM) :
    expenseAt cs ym = expenseSum cs ym := by
  unfold expenseAt
  by_cases h : ym ∈ expenseKeys cs
  · simp [h]
  · simp [h, expenseSum_eq_zero_of_not_mem cs ym h]

/-- The number of valid cells of a column equals the number of its non-NaN
entries. -/
theorem length_filterMap_amount (cs : List CleanRow) (p : CleanRow → Bool) :
    ((cs.filter p).filterMap (·.amount)).length
      = (cs.filter (fun r => p r && r.amount.isSome)).length := by
  induction cs with
  | nil => rfl
  | cons r rest ih =>
    by_cases hp : p r
    · cases ha : r.amount <;>
        simp [List.filter_cons, hp, ha, List.filterMap_cons, ih]
    · simp [List.filter_cons, hp, ih]

end AnalyzerLemmas

section AnalyzerClaims

/-- C1 (amended): on a non-empty clean ledger `analyze_cash_flow` succeeds and
`monthly_income_vs_expenses` has exactly one row for each month with at least
one positive-amount or one negative-amount transaction (the union of the
income and expense month sets) and no row for any other month; in each present
row the income and expenses columns are the grouped month sums, which are 0
for a side with no transactions. -/
theorem monthly_view_rows_are_active_months (L : RawLedger) (hne : L.rows ≠ [])
    (ym : YM) :
    analyzeCashFlow (cleanOf L) = .ok (mkBundle (cleanOf L)) ∧
    ((mkBundle (cleanOf L)).monthlyIncomeVsExpenses.countP
        (fun r => decide (r.yearMonth = ym)) =
      if ymActive (cleanOf L) ym then 1 else 0) ∧
    (∀ r ∈ (mkBundle (cleanOf L)).monthlyIncomeVsExpenses,
      r.income = incomeSum (cleanOf L) r.yearMonth ∧
      r.expenses = expenseSum (cleanOf L) r.yearMonth) := by
  refine ⟨?_, ?_, ?_⟩
  · have hf : (cleanOf L).isEmpty = false := by
      cases hL : L.rows with
      | nil => exact absurd hL hne
      | cons a l => simp [cleanOf, hL]
    simp [analyzeCashFlow, hf]
  · show (monthlyIncomeVsExpenses (cleanOf L)).countP _ = _
    rw [monthlyIncomeVsExpenses, List.countP_map]
    have h1 : ((fun r : IncExpRow => decide (r.yearMonth = ym)) ∘ mkIncExpRow (cleanOf L))
        = fun a : YM => decide (a = ym) := by
      funext a
      simp [mkIncExpRow]
    have hnd : (allMonths (cleanOf L)).Nodup :=
      nodup_sortYM _ (List.nodup_dedup _)
    have hiff : ym ∈ allMonths (cleanOf L) ↔ ymActive (cleanOf L) ym := by
      rw [allMonths, mem_sortYM, List.mem_dedup, List.mem_append,
        mem_incomeKeys, mem_expenseKeys]
      exact Iff.rfl
    rw [h1, countP_eq_ite_of_nodup _ hnd ym]
    simp only [hiff]
  · intro r hr
    rcases List.mem_map.1 hr with ⟨a, -, rfl⟩
    refine ⟨?_, ?_⟩
    · show incomeAt (cleanOf L) a = incomeSum (cleanOf L) (mkIncExpRow (cleanOf L) a).yearMonth
      rw [show (mkIncExpRow (cleanOf L) a).yearMonth = a from rfl]
      exact incomeAt_eq_incomeSum _ _
    · show expenseAt (cleanOf L) a = expenseSum (cleanOf L) (mkIncExpRow (cleanOf L) a).yearMonth
      rw [show (mkIncExpRow (cleanOf L) a).yearMonth = a from rfl]
      exact expenseAt_eq_expenseSum _ _

/-- C1 witness: on `exC1pair` the month 2024-02 (expense activity only) gets
exactly one row. -/
theorem monthly_view_rows_are_active_months_witness :
    exC1pair.rows ≠ [] ∧
    ((mkBundle (cleanOf exC1pair)).monthlyIncomeVsExpenses.countP
        (fun r => decide (r.yearMonth = (2024, 2))) =
      if ymActive (cleanOf exC1pair) (2024, 2) then 1 else 0) :=
  ⟨by with_unfolding_all decide, (monthly_view_rows_are_active_months exC1pair (by with_unfolding_all decide) (2024, 2)).2.1⟩

/-- C1 counterexample: in `exC1gap` the month 2024-02 lies strictly between
the minimum and maximum transaction date, yet `monthly_income_vs_expenses`
(produced by a successful `analyze_cash_flow`) has no row for it, refuting
the claimed full min-to-max month coverage. -/
theorem monthly_view_gap_cex :
    (cleanOf exC1gap).map (·.date) = [⟨2024, 1, 15⟩, ⟨2024, 3, 15⟩] ∧
    monthsBetween (2024, 1) (2024, 3) = [(2024, 1), (2024, 2), (2024, 3)] ∧
    analyzeCashFlow (cleanOf exC1gap) = .ok (mkBundle (cleanOf exC1gap)) ∧
    (monthlyIncomeVsExpenses (cleanOf exC1gap)).map (·.yearMonth)
      = [(2024, 1), (2024, 3)] ∧
    ¬ ((2024, 2) ∈ (monthlyIncomeVsExpenses (cleanOf exC1gap)).map (·.yearMonth)) := by
  with_unfolding_all decide

/-- C2: after `preprocess_data`, every row whose `type` is `debit` has a
non-positive amount and every row whose `type` is `credit` has a non-negative
amount (whenever the amount is a valid number), regardless of the sign the
raw extraction supplied. -/
theorem clean_sign_matches_type (L : RawLedger) (r : CleanRow)
    (hr : r ∈ cleanOf L) :
    (r.type = some "debit" → ∀ q : Rat, r.amount = some q → q ≤ 0) ∧
    (r.type = some "credit" → ∀ q : Rat, r.amount = some q → 0 ≤ q) := by
  rcases List.mem_map.1 hr with ⟨r0, -, rfl⟩
  rcases r0 with ⟨d, a, ty⟩
  cases hT : L.hasType with
  | false =>
    have htynone : (cleanRow false ⟨d, a, ty⟩).type = none := rfl
    constructor <;> intro hc <;> rw [htynone] at hc <;> exact Option.noConfusion hc
  | true =>
    have htyid : (cleanRow true ⟨d, a, ty⟩).type = ty := rfl
    have hamt : (cleanRow true ⟨d, a, ty⟩).amount
        = (if ty = some "debit" then (toNumeric a).map (fun q => -ratAbs q)
           else if ty = some "credit" then (toNumeric a).map (fun q => ratAbs q)
           else toNumeric a) := rfl
    by_cases hd : ty = some "debit"
    · constructor
      · intro _ q hq
        rw [hamt, if_pos hd] at hq
        rcases Option.map_eq_some'.1 hq with ⟨q0, -, rfl⟩
        exact neg_nonpos.2 (ratAbs_nonneg q0)
      · intro hc
        rw [htyid, hd] at hc
        simp at hc
    · by_cases hcr : ty = some "credit"
      · constructor
        · intro hc
          rw [htyid, hcr] at hc
          simp at hc
        · intro _ q hq
          rw [hamt, if_neg hd, if_pos hcr] at hq
          rcases Option.map_eq_some'.1 hq with ⟨q0, -, rfl⟩
          exact ratAbs_nonneg q0
      · constructor
        · intro hc
          rw [htyid] at hc
          exact absurd hc hd
        · intro hc
          rw [htyid] at hc
          exact absurd hc hcr

/-- C2 witness: a credit row whose raw amount was extracted as -7 carries
amount 7 after normalization, and the invariant instance 0 ≤ 7 follows from
the theorem. -/
theorem clean_sign_matches_type_witness :
    exC2row ∈ cleanOf exC2neg ∧ exC2row.type = some "credit" ∧
    exC2row.amount = some 7 ∧ (0 : Rat) ≤ 7 :=
  ⟨by with_unfolding_all decide, by with_unfolding_all decide, by with_unfolding_all decide,
    (clean_sign_matches_type exC2neg exC2row (by with_unfolding_all decide)).2 (by with_unfolding_all decide) 7 (by with_unfolding_all decide)⟩

/-- C5: any row of `monthly_income_vs_expenses` with income exactly 0 has
savings_rate exactly 0 - the raw division of line 90 is overridden by
line 91 and never reaches the returned view. -/
theorem savings_rate_zero_on_zero_income (L : RawLedger) (r : IncExpRow)
    (hr : r ∈ (mkBundle (cleanOf L)).monthlyIncomeVsExpenses)
    (h0 : r.income = 0) : r.savingsRate = 0 := by
  have hr' : r ∈ monthlyIncomeVsExpenses (cleanOf L) := hr
  rcases List.mem_map.1 hr' with ⟨ym, -, rfl⟩
  have h0' : incomeAt (cleanOf L) ym = 0 := h0
  show (if incomeAt (cleanOf L) ym = 0 then 0
    else round2 ((incomeAt (cleanOf L) ym - expenseAt (cleanOf L) ym)
      / incomeAt (cleanOf L) ym * 100)) = 0
  rw [if_pos h0']

/-- C5 witness: the expense-only month 2024-02 of `exC5exp` has income 0 and
savings_rate 0 in the view. -/
theorem savings_rate_zero_on_zero_income_witness :
    exC5row ∈ (mkBundle (cleanOf exC5exp)).monthlyIncomeVsExpenses ∧
    exC5row.income = 0 ∧ exC5row.expenses = 12 ∧ exC5row.savingsRate = 0 :=
  ⟨by with_unfolding_all decide, by with_unfolding_all decide, by with_unfolding_all decide,
    savings_rate_zero_on_zero_income exC5exp exC5row (by with_unfolding_all decide) (by with_unfolding_all decide)⟩

/-- C6 (amended): when the latest-dated row of the clean ledger has a valid
amount, the running_balance of the last row equals the summary net_flow, the
skip-NaN sum of all amounts of the ledger. -/
theorem last_running_balance_eq_net_flow (L : RawLedger) (q : Rat)
    (h : ((sortByDate (cleanOf L)).map (·.amount)).getLast? = some (some q)) :
    ((runningBalanceView (cleanOf L)).map Prod.snd).getLast?
      = some (some ((summaryOf (cleanOf L)).netFlow)) ∧
    (summaryOf (cleanOf L)).netFlow = sumValid ((cleanOf L).map (·.amount)) := by
  constructor
  · have hlen : ((sortByDate (cleanOf L)).map (·.date)).length
        ≤ (cumsumAux 0 ((sortByDate (cleanOf L)).map (·.amount))).length := by
      rw [cumsumAux_length, List.length_map, List.length_map]
    have hsnd : (runningBalanceView (cleanOf L)).map Prod.snd
        = cumsumAux 0 ((sortByDate (cleanOf L)).map (·.amount)) := by
      rw [runningBalanceView]
      exact List.map_snd_zip _ _ (by rw [cumsumAux_length, List.length_map, List.length_map])
    rw [hsnd, cumsumAux_getLast _ 0 q h, zero_add]
    have hperm : List.Perm (sortByDate (cleanOf L)) (cleanOf L) :=
      List.perm_insertionSort _ _
    have hsum : sumValid ((sortByDate (cleanOf L)).map (·.amount))
        = sumValid ((cleanOf L).map (·.amount)) := by
      unfold sumValid
      exact ((hperm.map (·.amount)).filterMap id).sum_eq
    rw [hsum]
    rfl
  · rfl

/-- C6 witness: on `exC6ok` (valid last amount) the final running balance
equals net_flow. -/
theorem last_running_balance_eq_net_flow_witness :
    ((sortByDate (cleanOf exC6ok)).map (·.amount)).getLast? = some (some (-1)) ∧
    ((runningBalanceView (cleanOf exC6ok)).map Prod.snd).getLast?
      = some (some ((summaryOf (cleanOf exC6ok)).netFlow)) :=
  ⟨by with_unfolding_all decide, (last_running_balance_eq_net_flow exC6ok (-1) (by with_unfolding_all decide)).1⟩

/-- C6 counterexample: in `exC6nan` the latest-dated row has an un-coercible
amount; the cumulative sum leaves its running_balance as NaN while net_flow
is 5, so the last running_balance does not equal net_flow. -/
theorem last_running_balance_nan_cex :
    ((runningBalanceView (cleanOf exC6nan)).map Prod.snd).getLast? = some none ∧
    (summaryOf (cleanOf exC6nan)).netFlow = 5 ∧
    ¬ (((runningBalanceView (cleanOf exC6nan)).map Prod.snd).getLast?
        = some (some ((summaryOf (cleanOf exC6nan)).netFlow))) := by
  with_unfolding_all decide

/-- C8 (amended): a row with an un-coercible amount degrades to a NaN marker
without aborting: the summary transaction_count still counts every raw row,
but the month's num_transactions in monthly_cash_flow counts only rows whose
amount is a valid number (pandas `count` skips NaN), and net_flow sums are
over valid amounts only. -/
theorem bad_amount_row_counting (L : RawLedger) (m : MonthlyFlowRow)
    (hm : m ∈ (mkBundle (cleanOf L)).monthlyCashFlow) :
    (mkBundle (cleanOf L)).summary.transactionCount = L.rows.length ∧
    m.numTransactions = ((cleanOf L).filter
        (fun r => decide (r.yearMonth = m.yearMonth) && r.amount.isSome)).length ∧
    m.netFlow = sumValid (((cleanOf L).filter
        (fun r => decide (r.yearMonth = m.yearMonth))).map (·.amount)) := by
  have hm' : m ∈ monthlyCashFlow (cleanOf L) := hm
  rcases List.mem_map.1 hm' with ⟨ym, -, rfl⟩
  refine ⟨?_, ?_, rfl⟩
  · show (cleanOf L).length = L.rows.length
    simp [cleanOf]
  · show ((((cleanOf L).filter (fun r => decide (r.yearMonth = ym))).map
        (·.amount)).filterMap id).length = _
    rw [List.filterMap_map]
    have hid : (id ∘ fun r : CleanRow => r.amount) = fun r : CleanRow => r.amount := rfl
    rw [hid, length_filterMap_amount]

/-- C8 witness: on `exC8mix` the 2024-06 group counts only its valid-amount
row while the summary counts both rows. -/
theorem bad_amount_row_counting_witness :
    (⟨(2024, 6), 9, 1⟩ : MonthlyFlowRow) ∈ (mkBundle (cleanOf exC8mix)).monthlyCashFlow ∧
    (mkBundle (cleanOf exC8mix)).summary.transactionCount = exC8mix.rows.length ∧
    (1 : Nat) = ((cleanOf exC8mix).filter
        (fun r => decide (r.yearMonth = (2024, 6)) && r.amount.isSome)).length :=
  ⟨by with_unfolding_all decide, (bad_amount_row_counting exC8mix ⟨(2024, 6), 9, 1⟩ (by with_unfolding_all decide)).1,
    (bad_amount_row_counting exC8mix ⟨(2024, 6), 9, 1⟩ (by with_unfolding_all decide)).2.1⟩

/-- C8 counterexample: in `exC8bad` the bad-amount row stays in the summary
transaction_count (2) but is missing from its month's num_transactions (1,
not 2 as the claim asserts), because pandas `count` skips NaN amounts. -/
theorem bad_amount_row_counting_cex :
    monthlyCashFlow (cleanOf exC8bad)
      = [⟨(2024, 5), 7, 1⟩] ∧
    (summaryOf (cleanOf exC8bad)).transactionCount = 2 ∧
    ((cleanOf exC8bad).filter (fun r => decide (r.yearMonth = (2024, 5)))).length = 2 ∧
    ¬ ((⟨(2024, 5), 7, 2⟩ : MonthlyFlowRow) ∈ monthlyCashFlow (cleanOf exC8bad)) := by
  with_unfolding_all decide

/-- C9: an empty ledger makes both `preprocess_data` and `analyze_cash_flow`
raise the distinct empty-data error before any aggregation: no bundle of
views is ever produced on empty input. -/
theorem empty_ledger_fails (L : RawLedger) (h : L.rows = []) :
    preprocessData L = .error .noData ∧
    analyzeCashFlow (cleanOf L) = .error .noData := by
  constructor
  · simp [preprocessData, h]
  · simp [analyzeCashFlow, cleanOf, h]

/-- C9 witness: the concrete empty ledger fails with the empty-data error at
both stages. -/
theorem empty_ledger_fails_witness :
    preprocessData ⟨[], true⟩ = .error .noData ∧
    analyzeCashFlow (cleanOf ⟨[], true⟩) = .error .noData :=
  empty_ledger_fails ⟨[], true⟩ rfl

/-- C10: when the raw DataFrame has no `type` column, `preprocess_data`
applies no sign enforcement: each clean amount is exactly the numeric
coercion of the raw amount, original sign preserved. -/
theorem no_type_column_keeps_raw_sign (L : RawLedger) (h : L.hasType = false) :
    (cleanOf L).map (·.amount) = L.rows.map (fun r => toNumeric r.amount) := by
  unfold cleanOf
  rw [List.map_map]
  apply List.map_congr_left
  intro r _
  show (cleanRow L.hasType r).amount = toNumeric r.amount
  rw [h]
  rfl

/-- C10 witness: without a `type` column the raw -8 stays -8 (despite the
`credit` cell) and the bad cell stays NaN. -/
theorem no_type_column_keeps_raw_sign_witness :
    exC10raw.hasType = false ∧
    (cleanOf exC10raw).map (·.amount) = [some (-8), none] := by
  constructor
  · rfl
  · rw [no_type_column_keeps_raw_sign exC10raw rfl]
    decide

end AnalyzerClaims

section NormalizerLemmas

/-- A successful page-pattern match implies a 'P' in the text. -/
theorem matchPage_mem (cs r : List Char) (h : matchPage cs = some r) : 'P' ∈ cs := by
  unfold matchPage at h
  split at h
  · simp
  · exact Option.noConfusion h

/-- Without a 'P' the page-boilerplate scan is the identity, for any fuel. -/
theorem removePageRefsAux_id (fuel : Nat) (cs : List Char) (h : 'P' ∉ cs) :
    removePageRefsAux fuel cs = cs := by
  induction fuel generalizing cs with
  | zero => rfl
  | succ n ih =>
    cases cs with
    | nil => rfl
    | cons c rest =>
      cases hm : matchPage (c :: rest) with
      | some rem => exact absurd (matchPage_mem _ _ hm) h
      | none =>
        simp only [removePageRefsAux, hm]
        exact congrArg (c :: ·) (ih rest (fun hc => h (List.mem_cons_of_mem c hc)))

/-- Without an occurrence of the letter `a` the OCR fix-up is the identity. -/
theorem fixLetterDigit_id (a b : Char) :
    ∀ (n : Nat) (cs : List Char), cs.length ≤ n → a ∉ cs →
      fixLetterDigit a b cs = cs := by
  intro n
  induction n with
  | zero =>
    intro cs hlen _
    cases cs with
    | nil => rfl
    | cons c rest => simp at hlen
  | succ n ih =>
    intro cs hlen h
    rcases cs with - | ⟨c, - | ⟨d, rest⟩⟩
    · rfl
    · rfl
    · have hca : ¬(c = a ∧ d.isDigit = true) := by
        rintro ⟨rfl, -⟩
        exact h (List.mem_cons_self c (d :: rest))
      show (if c = a ∧ d.isDigit then b :: d :: fixLetterDigit a b rest
            else c :: fixLetterDigit a b (d :: rest)) = c :: d :: rest
      rw [if_neg hca,
        ih (d :: rest) (by simp only [List.length_cons] at hlen ⊢; omega)
          (fun hc => h (List.mem_cons_of_mem c hc))]

/-- Characters of the collapsed text come from the input or are spaces. -/
theorem mem_collapseWsGo (s : Bool) (cs : List Char) (c : Char)
    (h : c ∈ collapseWsGo s cs) : c ∈ cs ∨ c = ' ' := by
  induction cs generalizing s with
  | nil => simp [collapseWsGo] at h
  | cons x rest ih =>
    by_cases hx : isWsChar x
    · cases s with
      | true =>
        simp only [collapseWsGo, hx, if_true] at h
        rcases ih true h with hm | hs
        · exact Or.inl (List.mem_cons_of_mem x hm)
        · exact Or.inr hs
      | false =>
        simp only [collapseWsGo, hx, if_true, if_false] at h
        rcases List.mem_cons.1 h with rfl | h'
        · exact Or.inr rfl
        · rcases ih true h' with hm | hs
          · exact Or.inl (List.mem_cons_of_mem x hm)
          · exact Or.inr hs
    · simp only [collapseWsGo, hx, if_false] at h
      rcases List.mem_cons.1 h with rfl | h'
      · exact Or.inl (List.mem_cons_self c rest)
      · rcases ih false h' with hm | hs
        · exact Or.inl (List.mem_cons_of_mem x hm)
        · exact Or.inr hs

/-- The state-`true` collapse (inside a whitespace run) emits a
non-whitespace character first, if anything. -/
theorem collapseWsGo_true_head (cs : List Char) : headNonWs (collapseWsGo true cs) := by
  induction cs with
  | nil => trivial
  | cons x rest ih =>
    by_cases hx : isWsChar x
    · simpa only [collapseWsGo, hx, if_true] using ih
    · simp only [collapseWsGo, hx, if_false]
      exact eq_false_of_ne_true (by simpa using hx)

/-- Collapsed text satisfies the cleanliness invariant. -/
theorem collapseWsGo_clean (cs : List Char) : ∀ s, CleanText (collapseWsGo s cs) := by
  induction cs with
  | nil => intro s; trivial
  | cons x rest ih =>
    intro s
    by_cases hx : isWsChar x
    · cases s with
      | true => simpa only [collapseWsGo, hx, if_true] using ih true
      | false =>
        simp only [collapseWsGo, hx, if_true, if_false]
        cases hgo : collapseWsGo true rest with
        | nil => exact Or.inr rfl
        | cons y ys =>
          have hy : isWsChar y = false := by
            have := collapseWsGo_true_head rest
            rw [hgo] at this
            exact this
          refine ⟨Or.inr rfl, ?_, ?_⟩
          · rintro ⟨-, hy'⟩
            rw [hy] at hy'
            exact Bool.noConfusion hy'
          · have := ih true
            rw [hgo] at this
            exact this
    · simp only [collapseWsGo, hx, if_false]
      cases hgo : collapseWsGo false rest with
      | nil => exact Or.inl (eq_false_of_ne_true (by simpa using hx))
      | cons y ys =>
        refine ⟨Or.inl (eq_false_of_ne_true (by simpa using hx)), ?_, ?_⟩
        · rintro ⟨hx', -⟩
          exact hx (by simpa using hx')
        · have := ih false
          rw [hgo] at this
          exact this

/-- On clean text the whitespace collapse is the identity. -/
theorem collapseWsGo_false_id : ∀ cs, CleanText cs → collapseWsGo false cs = cs := by
  intro cs
  induction cs with
  | nil => intro _; rfl
  | cons c tail ih =>
    intro h
    cases tail with
    | nil =>
      have h' : isWsChar c = false ∨ c = ' ' := h
      rcases h' with h1 | h1
      · simp [collapseWsGo, h1]
      · subst h1
        rfl
    | cons d rest =>
      obtain ⟨h1, h2, h3⟩ := h
      by_cases hc : isWsChar c
      · have hc' : c = ' ' := by
          rcases h1 with h1 | h1
          · rw [hc] at h1
            exact Bool.noConfusion h1
          · exact h1
        subst hc'
        have hd : isWsChar d = false := by
          by_contra hd'
          exact h2 ⟨rfl, by simpa using hd'⟩
        have e1 : collapseWsGo false (' ' :: d :: rest)
            = ' ' :: collapseWsGo true (d :: rest) := rfl
        have e2 : collapseWsGo true (d :: rest) = d :: collapseWsGo false rest := by
          simp [collapseWsGo, hd]
        have e3 : collapseWsGo false (d :: rest) = d :: collapseWsGo false rest := by
          simp [collapseWsGo, hd]
        have e4 := ih h3
        rw [e3] at e4
        have e5 : collapseWsGo false rest = rest := by
          injection e4 with h5 h6
        rw [e1, e2, e5]
      · have e : collapseWsGo false (c :: d :: rest)
            = c :: collapseWsGo false (d :: rest) := by
          simp [collapseWsGo, hc]
        rw [e, ih h3]

/-- The whitespace collapse is idempotent. -/
theorem collapseWs_idem (cs : List Char) :
    collapseWs (collapseWs cs) = collapseWs cs :=
  collapseWsGo_false_id _ (collapseWsGo_clean _ _)

/-- On text with no 'l', 'O' or 'P' the whole normalizer degenerates to the
whitespace collapse. -/
theorem preprocessTextL_eq_collapse (cs : List Char)
    (h : ∀ c ∈ cs, c ≠ 'l' ∧ c ≠ 'O' ∧ c ≠ 'P') :
    preprocessTextL cs = collapseWs cs := by
  have hP : 'P' ∉ cs := fun hc => (h _ hc).2.2 rfl
  have hrp : removePageRefs cs = cs := removePageRefsAux_id _ _ hP
  have hl : 'l' ∉ collapseWs cs := by
    intro hc
    rcases mem_collapseWsGo false cs 'l' hc with hcs | hsp
    · exact (h _ hcs).1 rfl
    · exact absurd hsp (by decide)
  have hO : 'O' ∉ collapseWs cs := by
    intro hc
    rcases mem_collapseWsGo false cs 'O' hc with hcs | hsp
    · exact (h _ hcs).2.1 rfl
    · exact absurd hsp (by decide)
  unfold preprocessTextL
  rw [show removePageRefs cs = cs from hrp,
    fixLetterDigit_id 'l' '1' (collapseWs cs).length _ le_rfl hl,
    fixLetterDigit_id 'O' '0' (collapseWs cs).length _ le_rfl hO]

end NormalizerLemmas

section NormalizerClaims

/-- C7 (amended): the text normalizer is idempotent on every input containing
none of the OCR-sensitive characters 'l', 'O' and 'P'; on such text it
reduces to the whitespace collapse, which is idempotent.  (On general input
a fix-up can create a fresh fixable pattern, so full idempotence fails - see
the counterexample.) -/
theorem preprocess_text_idem_on_clean_chars (s : String)
    (h : ∀ c ∈ s.toList, c ≠ 'l' ∧ c ≠ 'O' ∧ c ≠ 'P') :
    preprocessText (preprocessText s) = preprocessText s := by
  have h2 : ∀ c ∈ collapseWs s.toList, c ≠ 'l' ∧ c ≠ 'O' ∧ c ≠ 'P' := by
    intro c hc
    rcases mem_collapseWsGo false s.toList c hc with hcs | hsp
    · exact h c hcs
    · subst hsp
      exact ⟨by decide, by decide, by decide⟩
  have hlist : preprocessTextL (preprocessTextL s.toList) = preprocessTextL s.toList := by
    calc preprocessTextL (preprocessTextL s.toList)
        = preprocessTextL (collapseWs s.toList) := by
          rw [preprocessTextL_eq_collapse s.toList h]
      _ = collapseWs (collapseWs s.toList) := preprocessTextL_eq_collapse _ h2
      _ = collapseWs s.toList := collapseWs_idem _
      _ = preprocessTextL s.toList := (preprocessTextL_eq_collapse s.toList h).symm
  show (⟨preprocessTextL (String.toList ⟨preprocessTextL s.toList⟩)⟩ : String)
      = ⟨preprocessTextL s.toList⟩
  exact congrArg String.mk hlist

/-- C7 witness: a concrete clean text is a fixed point of the normalizer. -/
theorem preprocess_text_idem_witness :
    (∀ c ∈ ("net 40  and 60\n").toList, c ≠ 'l' ∧ c ≠ 'O' ∧ c ≠ 'P') ∧
    preprocessText (preprocessText "net 40  and 60\n")
      = preprocessText "net 40  and 60\n" :=
  ⟨by decide, preprocess_text_idem_on_clean_chars _ (by decide)⟩

/-- C7 counterexample: on "ll5" one pass gives "l15" (the second 'l' is
fixed, creating a fresh `l<digit>` pair) and a second pass gives "115", so
normalize ∘ normalize differs from normalize. -/
theorem preprocess_text_not_idempotent_cex :
    preprocessText "ll5" = "l15" ∧
    preprocessText (preprocessText "ll5") = "115" ∧
    preprocessText (preprocessText "ll5") ≠ preprocessText "ll5" := by
  refine ⟨by decide, by decide, by decide⟩

end NormalizerClaims

section JsonBasicLemmas

/-- Skipping whitespace before a non-whitespace head is the identity. -/
theorem skipJsonWs_nonws (c : Char) (rest : List Char) (h : isJsonWs c = false) :
    skipJsonWs (c :: rest) = c :: rest := by
  simp [skipJsonWs, h]

/-- The whitespace skip returns a suffix of its input. -/
theorem skipJsonWs_suffix (cs : List Char) : skipJsonWs cs <:+ cs := by
  induction cs with
  | nil => exact List.suffix_rfl
  | cons c rest ih =>
    by_cases h : isJsonWs c
    · rw [show skipJsonWs (c :: rest) = skipJsonWs rest by simp [skipJsonWs, h]]
      exact ih.trans (List.suffix_cons c rest)
    · rw [skipJsonWs_nonws c rest (by simpa using h)]

/-- A digit is not one of the four JSON whitespace characters. -/
theorem isJsonWs_of_digit (c : Char) (h : c.isDigit = true) : isJsonWs c = false := by
  by_contra hw
  have hw' : isJsonWs c = true := by simpa using hw
  unfold isJsonWs at hw'
  rcases Bool.or_eq_true_iff.1 hw' with h1 | h1
  · rcases Bool.or_eq_true_iff.1 h1 with h2 | h2
    · rcases Bool.or_eq_true_iff.1 h2 with h3 | h3
      · rw [show c = ' ' by simpa using h3] at h
        exact Bool.noConfusion h
      · rw [show c = '\t' by simpa using h3] at h
        exact Bool.noConfusion h
    · rw [show c = '\n' by simpa using h2] at h
      exact Bool.noConfusion h
  · rw [show c = '\r' by simpa using h1] at h
    exact Bool.noConfusion h

/-- A digit differs from any non-digit character. -/
theorem ne_of_digit (c x : Char) (h : c.isDigit = true) (hx : x.isDigit = false) :
    c ≠ x := by
  intro he
  rw [he, hx] at h
  exact Bool.noConfusion h

/-- Round trip for string bodies free of quotes and backslashes. -/
theorem parseStringBody_rt (v rest : List Char)
    (h : ∀ c ∈ v, c ≠ '"' ∧ c ≠ '\\') :
    parseStringBody (v ++ '"' :: rest) = some (v, rest) := by
  induction v with
  | nil => simp [parseStringBody]
  | cons c v' ih =>
    have hc := h c (List.mem_cons_self c v')
    rw [List.cons_append]
    show (if c = '"' then some (([] : List Char), v' ++ '"' :: rest)
      else if c = '\\' then none
      else
        match parseStringBody (v' ++ '"' :: rest) with
        | some (s, rem) => some (c :: s, rem)
        | none => none) = some (c :: v', rest)
    rw [if_neg hc.1, if_neg hc.2, ih (fun d hd => h d (List.mem_cons_of_mem c hd))]

/-- The remainder of a successful string-body parse is a suffix. -/
theorem parseStringBody_suffix (cs s rem : List Char)
    (h : parseStringBody cs = some (s, rem)) : rem <:+ cs := by
  induction cs generalizing s with
  | nil => exact absurd h (by simp [parseStringBody])
  | cons c rest ih =>
    by_cases hq : c = '"'
    · subst hq
      have h' : some (([] : List Char), rest) = some (s, rem) := by
        simpa [parseStringBody] using h
      have : rest = rem := by
        injection h' with h''
        injection h'' with h1 h2
      rw [← this]
      exact List.suffix_cons _ _
    · by_cases hb : c = '\\'
      · subst hb
        exact absurd h (by simp [parseStringBody, hq])
      · have h' : (match parseStringBody rest with
            | some (s, rem) => some (c :: s, rem)
            | none => none) = some (s, rem) := by
          simpa [parseStringBody, hq, hb] using h
        cases hrec : parseStringBody rest with
        | none => rw [hrec] at h'; exact Option.noConfusion h'
        | some pr =>
          rcases pr with ⟨s', rem'⟩
          rw [hrec] at h'
          have hr : rem' = rem := by
            injection h' with h''
            injection h'' with h1 h2
          subst hr
          exact (ih s' hrec).trans (List.suffix_cons _ _)

/-- The remainder of the digit muncher is a suffix of its input. -/
theorem parseDigitsAux_suffix (cs : List Char) :
    ∀ acc cnt, (parseDigitsAux acc cnt cs).2.2 <:+ cs := by
  induction cs with
  | nil => intro acc cnt; exact List.suffix_rfl
  | cons c rest ih =>
    intro acc cnt
    by_cases hd : c.isDigit
    · rw [show parseDigitsAux acc cnt (c :: rest)
          = parseDigitsAux (acc * 10 + (c.toNat - 48)) (cnt + 1) rest by
        simp [parseDigitsAux, hd]]
      exact (ih _ _).trans (List.suffix_cons c rest)
    · rw [show parseDigitsAux acc cnt (c :: rest) = (acc, cnt, c :: rest) by
        simp [parseDigitsAux, hd]]

/-- Round trip for the digit muncher on a digit run followed by a
non-digit. -/
theorem parseDigitsAux_rt (ds : List Char) :
    ∀ acc cnt rest, (∀ c ∈ ds, c.isDigit = true) → headNotDigit rest →
      parseDigitsAux acc cnt (ds ++ rest)
        = (ds.foldl (fun a c => a * 10 + (c.toNat - 48)) acc, cnt + ds.length, rest) := by
  induction ds with
  | nil =>
    intro acc cnt rest _ hrest
    cases rest with
    | nil => rfl
    | cons c r =>
      have hc : c.isDigit = false := hrest
      simp [parseDigitsAux, hc]
  | cons d ds' ih =>
    intro acc cnt rest h hrest
    have hd : d.isDigit = true := h d (List.mem_cons_self d ds')
    rw [List.cons_append,
      show parseDigitsAux acc cnt (d :: (ds' ++ rest))
        = parseDigitsAux (acc * 10 + (d.toNat - 48)) (cnt + 1) (ds' ++ rest) by
          simp [parseDigitsAux, hd],
      ih _ _ rest (fun c hc => h c (List.mem_cons_of_mem d hc)) hrest]
    simp [List.foldl_cons]
    try omega

end JsonBasicLemmas

section JsonScalarLemmas

/-- Peeling the first digit off a digit-run value. -/
theorem digitsVal_cons (d : Char) (ds : List Char) :
    digitsVal (d :: ds) = ds.foldl (fun a c => a * 10 + (c.toNat - 48)) (d.toNat - 48) := by
  simp [digitsVal, List.foldl_cons]

/-- Round trip for unsigned numerals followed by a number boundary. -/
theorem parseNumAfterSign_rt (ds rest : List Char) (hne : ds ≠ [])
    (h : ∀ c ∈ ds, c.isDigit = true) (hb : numBoundary rest) :
    parseNumAfterSign (ds ++ rest) = some ((digitsVal ds : Rat), rest) := by
  rcases ds with - | ⟨d, ds'⟩
  · exact absurd rfl hne
  · have hd : d.isDigit = true := h d (List.mem_cons_self d ds')
    have hnd : headNotDigit rest := by
      cases rest with
      | nil => trivial
      | cons c r => exact hb.1
    rw [List.cons_append]
    simp only [parseNumAfterSign, hd, if_true,
      parseDigitsAux_rt ds' _ _ rest (fun c hc => h c (List.mem_cons_of_mem d hc)) hnd]
    cases rest with
    | nil => rw [digitsVal_cons]
    | cons c r =>
      have hdot : c ≠ '.' := hb.2
      simp only [hdot, if_false, digitsVal_cons]

/-- Round trip for serialized scalars followed by a number boundary. -/
theorem parseScalar_rt (v : SVal) (rest : List Char) (hv : GoodSVal v)
    (hb : numBoundary rest) :
    parseScalar (serSVal v ++ rest) = some (svalToJ v, rest) := by
  cases v with
  | str s =>
    have : serSVal (.str s) ++ rest = '"' :: (s.toList ++ '"' :: rest) := by
      simp [serSVal]
    rw [this]
    simp only [parseScalar, if_pos rfl]
    rw [parseStringBody_rt s.toList rest (fun c hc => ⟨(hv c hc).1, (hv c hc).2.1⟩)]
    rfl
  | null =>
    show parseScalar ('n' :: 'u' :: 'l' :: 'l' :: rest) = some (.jnull, rest)
    simp [parseScalar]
  | num neg ds =>
    obtain ⟨hne, hds⟩ := hv
    rcases ds with - | ⟨d, ds'⟩
    · exact absurd rfl hne
    · have hd : d.isDigit = true := hds d (List.mem_cons_self d ds')
      cases neg with
      | false =>
        have hser : serSVal (.num false (d :: ds')) ++ rest = d :: (ds' ++ rest) := by
          simp [serSVal]
        rw [hser]
        have hq : d ≠ '"' := ne_of_digit d '"' hd (by decide)
        have hn : d ≠ 'n' := ne_of_digit d 'n' hd (by decide)
        have ht : d ≠ 't' := ne_of_digit d 't' hd (by decide)
        have hf : d ≠ 'f' := ne_of_digit d 'f' hd (by decide)
        have hm : d ≠ '-' := ne_of_digit d '-' hd (by decide)
        simp only [parseScalar, hq, hn, ht, hf, if_false]
        simp only [parseNumber, hm, if_false]
        rw [show d :: (ds' ++ rest) = (d :: ds') ++ rest from rfl,
          parseNumAfterSign_rt (d :: ds') rest (by simp) hds hb]
        rfl
      | true =>
        have hser : serSVal (.num true (d :: ds')) ++ rest
            = '-' :: ((d :: ds') ++ rest) := by
          simp [serSVal]
        rw [hser]
        simp only [parseScalar]
        rw [if_neg (by decide), if_neg (by decide), if_neg (by decide),
          if_neg (by decide)]
        simp only [parseNumber, if_pos rfl]
        rw [parseNumAfterSign_rt (d :: ds') rest (by simp) hds hb]
        rfl

/-- The remainder of a successful unsigned-numeral parse is a suffix. -/
theorem parseNumAfterSign_suffix (cs : List Char) (q : Rat) (rem : List Char)
    (h : parseNumAfterSign cs = some (q, rem)) : rem <:+ cs := by
  rcases cs with - | ⟨c, rest⟩
  · exact absurd h (by simp [parseNumAfterSign])
  · by_cases hd : c.isDigit
    · simp only [parseNumAfterSign, hd, if_true] at h
      rcases hpda : parseDigitsAux (c.toNat - 48) 1 rest with ⟨n, cnt, rem1⟩
      have hrem1 : rem1 <:+ rest := by
        have := parseDigitsAux_suffix rest (c.toNat - 48) 1
        rw [hpda] at this
        exact this
      rw [hpda] at h
      rcases rem1 with - | ⟨x, rest2⟩
      · simp only at h
        have : rem = [] := by
          injection h with h'
          injection h' with h1 h2
          exact h2.symm
        subst this
        exact List.nil_suffix
      · by_cases hdot : x = '.'
        · subst hdot
          simp only [if_pos rfl] at h
          rcases rest2 with - | ⟨e, rest3⟩
          · exact absurd h (by simp)
          · by_cases he : e.isDigit
            · simp only [he, if_true] at h
              rcases hpdb : parseDigitsAux (e.toNat - 48) 1 rest3 with ⟨f, fc, rem2⟩
              rw [hpdb] at h
              simp only at h
              have hr : rem = rem2 := by
                injection h with h'
                injection h' with h1 h2
                exact h2.symm
              subst hr
              have h1 : rem <:+ rest3 := by
                have := parseDigitsAux_suffix rest3 (e.toNat - 48) 1
                rw [hpdb] at this
                exact this
              have h2 : rest3 <:+ ('.' :: e :: rest3) :=
                (List.suffix_cons e rest3).trans (List.suffix_cons '.' _)
              exact ((h1.trans h2).trans hrem1).trans (List.suffix_cons c rest)
            · exact absurd h (by simp [he])
        · simp only [hdot, if_false] at h
          have hr : rem = x :: rest2 := by
            injection h with h'
            injection h' with h1 h2
            exact h2.symm
          subst hr
          exact hrem1.trans (List.suffix_cons c rest)
    · exact absurd h (by simp [parseNumAfterSign, hd])

/-- The remainder of a successful number parse is a suffix. -/
theorem parseNumber_suffix (cs : List Char) (q : Rat) (rem : List Char)
    (h : parseNumber cs = some (q, rem)) : rem <:+ cs := by
  rcases cs with - | ⟨c, rest⟩
  · exact absurd h (by simp [parseNumber])
  · by_cases hm : c = '-'
    · subst hm
      simp only [parseNumber, if_pos rfl] at h
      rcases hs : parseNumAfterSign rest with - | ⟨q', rem'⟩
      · rw [hs] at h
        exact Option.noConfusion h
      · rw [hs] at h
        have hr : rem = rem' := by
          injection h with h'
          injection h' with h1 h2
          exact h2.symm
        subst hr
        exact (parseNumAfterSign_suffix rest q' rem hs).trans (List.suffix_cons '-' rest)
    · simp only [parseNumber, hm, if_false] at h
      exact parseNumAfterSign_suffix _ _ _ h

/-- The remainder of a successful scalar parse is a suffix. -/
theorem parseScalar_suffix (cs : List Char) (v : JVal) (rem : List Char)
    (h : parseScalar cs = some (v, rem)) : rem <:+ cs := by
  rcases cs with - | ⟨c, rest⟩
  · exact absurd h (by simp [parseScalar])
  · by_cases hq : c = '"'
    · subst hq
      simp only [parseScalar, if_pos rfl] at h
      rcases hs : parseStringBody rest with - | ⟨s, rem'⟩
      · rw [hs] at h
        exact Option.noConfusion h
      · rw [hs] at h
        have hr : rem = rem' := by
          injection h with h'
          injection h' with h1 h2
          exact h2.symm
        subst hr
        exact (parseStringBody_suffix rest s rem hs).trans (List.suffix_cons '"' rest)
    · by_cases hn : c = 'n'
      · subst hn
        simp [parseScalar] at h
        split at h
        · rename_i r
          have hr : rem = r := by
            injection h with h'
            injection h' with h1 h2
            exact h2.symm
          subst hr
          exact (List.suffix_cons 'l' _).trans ((List.suffix_cons 'l' _).trans
            ((List.suffix_cons 'u' _).trans (List.suffix_cons 'n' _)))
        · exact Option.noConfusion h
      · by_cases ht : c = 't'
        · subst ht
          simp [parseScalar] at h
          split at h
          · rename_i r
            have hr : rem = r := by
              injection h with h'
              injection h' with h1 h2
              exact h2.symm
            subst hr
            exact (List.suffix_cons 'e' _).trans ((List.suffix_cons 'u' _).trans
              ((List.suffix_cons 'r' _).trans (List.suffix_cons 't' _)))
          · exact Option.noConfusion h
        · by_cases hf : c = 'f'
          · subst hf
            simp [parseScalar] at h
            split at h
            · rename_i r
              have hr : rem = r := by
                injection h with h'
                injection h' with h1 h2
                exact h2.symm
              subst hr
              exact (List.suffix_cons 'e' _).trans ((List.suffix_cons 's' _).trans
                ((List.suffix_cons 'l' _).trans ((List.suffix_cons 'a' _).trans
                  (List.suffix_cons 'f' _))))
            · exact Option.noConfusion h
          · simp only [parseScalar, hq, hn, ht, hf, if_false] at h
            rcases hp : parseNumber (c :: rest) with - | ⟨q', rem'⟩
            · rw [hp] at h
              exact Option.noConfusion h
            · rw [hp] at h
              have hr : rem = rem' := by
                injection h with h'
                injection h' with h1 h2
                exact h2.symm
              subst hr
              exact parseNumber_suffix _ _ _ hp

end JsonScalarLemmas

section JsonMemberLemmas

/-- A serialized scalar starts with a non-whitespace character, so the
whitespace skip before it is the identity. -/
theorem skipJsonWs_serSVal (v : SVal) (rest : List Char) (hv : GoodSVal v) :
    skipJsonWs (serSVal v ++ rest) = serSVal v ++ rest := by
  cases v with
  | str s => exact skipJsonWs_nonws _ _ (by decide)
  | null => exact skipJsonWs_nonws _ _ (by decide)
  | num neg ds =>
    obtain ⟨hne, hds⟩ := hv
    rcases ds with - | ⟨d, ds'⟩
    · exact absurd rfl hne
    · cases neg with
      | true => exact skipJsonWs_nonws _ _ (by decide)
      | false =>
        have hd : d.isDigit = true := hds d (List.mem_cons_self d ds')
        exact skipJsonWs_nonws _ _ (isJsonWs_of_digit d hd)

/-- Round trip for one serialized member with the scalar value parser. -/
theorem parseMember_rt (k : String) (v : SVal) (rest : List Char)
    (hk : GoodStr k) (hv : GoodSVal v) (hb : numBoundary rest) :
    parseMember parseScalar (serMember (k, v) ++ rest)
      = some ((k, svalToJ v), rest) := by
  have hser : serMember (k, v) ++ rest
      = '"' :: (k.toList ++ '"' :: ':' :: (serSVal v ++ rest)) := by
    simp [serMember]
  have hsb : parseStringBody (k.toList ++ '"' :: ':' :: (serSVal v ++ rest))
      = some (k.toList, ':' :: (serSVal v ++ rest)) :=
    parseStringBody_rt k.toList _ (fun c hc => ⟨(hk c hc).1, (hk c hc).2.1⟩)
  have hsc : parseScalar (serSVal v ++ rest) = some (svalToJ v, rest) :=
    parseScalar_rt v rest hv hb
  rw [hser]
  simp only [parseMember, skipJsonWs_nonws '"' _ (by decide), if_pos rfl, hsb]
  simp only [skipJsonWs_nonws ':' _ (by decide), if_pos rfl,
    skipJsonWs_serSVal v rest hv, hsc]
  rfl

/-- The remainder of a successful member parse is a suffix of the input,
provided the value parser has the same property. -/
theorem parseMember_suffix (pv : List Char → Option (JVal × List Char))
    (hpv : ∀ cs v rem, pv cs = some (v, rem) → rem <:+ cs)
    (cs : List Char) (kv : String × JVal) (rem : List Char)
    (h : parseMember pv cs = some (kv, rem)) : rem <:+ cs := by
  unfold parseMember at h
  split at h
  · exact Option.noConfusion h
  · rename_i c rest hsk
    have hrest : rest <:+ cs := by
      have h1 : c :: rest <:+ cs := hsk ▸ skipJsonWs_suffix cs
      exact (List.suffix_cons c rest).trans h1
    by_cases hq : c = '"'
    · rw [if_pos hq] at h
      split at h
      · rename_i k1 rem1 hsb
        have hrem1 : rem1 <:+ cs :=
          (parseStringBody_suffix rest k1 rem1 hsb).trans hrest
        split at h
        · exact Option.noConfusion h
        · rename_i d rem2 hsk2
          have hrem2 : rem2 <:+ cs := by
            have h1 : d :: rem2 <:+ rem1 := hsk2 ▸ skipJsonWs_suffix rem1
            exact ((List.suffix_cons d rem2).trans h1).trans hrem1
          by_cases hcol : d = ':'
          · rw [if_pos hcol] at h
            split at h
            · rename_i v1 rem3 hpvv
              have hr : rem = rem3 := by
                injection h with h'
                injection h' with h1 h2
                exact h2.symm
              subst hr
              exact ((hpv _ _ _ hpvv).trans (skipJsonWs_suffix rem2)).trans hrem2
            · exact Option.noConfusion h
          · rw [if_neg hcol] at h
            exact Option.noConfusion h
      · exact Option.noConfusion h
    · rw [if_neg hq] at h
      exact Option.noConfusion h

end JsonMemberLemmas

section JsonObjectLemmas

/-- A closing brace or comma is a legal number boundary. -/
theorem numBoundary_brace (rest : List Char) : numBoundary ('\x7d' :: rest) :=
  ⟨by decide, by decide⟩

/-- A comma is a legal number boundary. -/
theorem numBoundary_comma (rest : List Char) : numBoundary (',' :: rest) :=
  ⟨by decide, by decide⟩

/-- A serialized member list of a non-empty object starts with a quote. -/
theorem serMembers_cons (kv : String × SVal) (o' : SObj) :
    ∃ t, serMembers (kv :: o') = '"' :: t := by
  cases o' with
  | nil => exact ⟨kv.1.toList ++ '"' :: ':' :: serSVal kv.2, rfl⟩
  | cons kv2 o'' =>
    exact ⟨kv.1.toList ++ '"' :: ':' :: serSVal kv.2 ++ ',' :: serMembers (kv2 :: o''), by
      show serMember kv ++ ',' :: serMembers (kv2 :: o'') = _
      simp [serMember]⟩

/-- A member list is no longer than its serialization. -/
theorem length_serMembers (o : SObj) : o.length ≤ (serMembers o).length := by
  induction o with
  | nil => simp [serMembers]
  | cons kv rest ih =>
    cases rest with
    | nil => simp [serMembers, serMember]
    | cons kv2 rest2 =>
      show (kv :: kv2 :: rest2).length
          ≤ (serMember kv ++ ',' :: serMembers (kv2 :: rest2)).length
      simp only [List.length_cons, List.length_append, serMember]
      have := ih
      simp only [List.length_cons] at this ⊢
      omega

/-- No closing brace occurs in a serialized good scalar. -/
theorem brace_not_mem_serSVal (v : SVal) (hv : GoodSVal v) :
    '\x7d' ∉ serSVal v := by
  intro hmem
  cases v with
  | str s =>
    rcases List.mem_cons.1 hmem with he | hmem2
    · exact absurd he (by decide)
    · rcases List.mem_append.1 hmem2 with hs | he
      · exact (hv _ hs).2.2 rfl
      · rcases List.mem_singleton.1 he with he
        exact absurd he (by decide)
  | null => exact absurd hmem (by decide)
  | num neg ds =>
    obtain ⟨-, hds⟩ := hv
    cases neg with
    | true =>
      rcases List.mem_cons.1 hmem with he | hmem2
      · exact absurd he (by decide)
      · exact ne_of_digit _ '\x7d' (hds _ hmem2) (by decide) rfl
    | false =>
      have hmem2 : '\x7d' ∈ ds := by simpa [serSVal] using hmem
      exact ne_of_digit _ '\x7d' (hds _ hmem2) (by decide) rfl

/-- No closing brace occurs in a serialized good member. -/
theorem brace_not_mem_serMember (kv : String × SVal)
    (hk : GoodStr kv.1) (hv : GoodSVal kv.2) : '\x7d' ∉ serMember kv := by
  intro hmem
  rcases List.mem_cons.1 hmem with he | hmem2
  · exact absurd he (by decide)
  · rcases List.mem_append.1 hmem2 with hs | hmem3
    · exact (hk _ hs).2.2 rfl
    · rcases List.mem_cons.1 hmem3 with he | hmem4
      · exact absurd he (by decide)
      · rcases List.mem_cons.1 hmem4 with he | hmem5
        · exact absurd he (by decide)
        · exact brace_not_mem_serSVal kv.2 hv hmem5

/-- No closing brace occurs in a serialized good member list. -/
theorem brace_not_mem_serMembers (o : SObj)
    (hg : ∀ kv ∈ o, GoodStr kv.1 ∧ GoodSVal kv.2) : '\x7d' ∉ serMembers o := by
  induction o with
  | nil => simp [serMembers]
  | cons kv o' ih =>
    intro hmem
    have hkv := hg kv (List.mem_cons_self kv o')
    cases o' with
    | nil => exact brace_not_mem_serMember kv hkv.1 hkv.2 hmem
    | cons kv2 o'' =>
      have hmem' : '\x7d' ∈ serMember kv ++ ',' :: serMembers (kv2 :: o'') := hmem
      rcases List.mem_append.1 hmem' with h1 | h2
      · exact brace_not_mem_serMember kv hkv.1 hkv.2 h1
      · rcases List.mem_cons.1 h2 with he | h3
        · exact absurd he (by decide)
        · exact ih (fun kv3 h3' => hg kv3 (List.mem_cons_of_mem kv h3')) h3

/-- Round trip for the member loop on a serialized member list followed by
the closing brace. -/
theorem parseMembersAux_rt (o : SObj) :
    ∀ fuel rest, (∀ kv ∈ o, GoodStr kv.1 ∧ GoodSVal kv.2) → o ≠ [] →
      o.length ≤ fuel →
      parseMembersAux parseScalar fuel (serMembers o ++ '\x7d' :: rest)
        = some (o.map (fun kv => (kv.1, svalToJ kv.2)), rest) := by
  induction o with
  | nil => intro fuel rest _ hne _; exact absurd rfl hne
  | cons kv o' ih =>
    intro fuel rest hg _ hlen
    cases fuel with
    | zero => simp at hlen
    | succ n =>
      have hkv := hg kv (List.mem_cons_self kv o')
      cases o' with
      | nil =>
        have hm := parseMember_rt kv.1 kv.2 ('\x7d' :: rest) hkv.1 hkv.2
          (numBoundary_brace rest)
        show parseMembersAux parseScalar (n + 1) (serMember kv ++ '\x7d' :: rest)
            = some ([(kv.1, svalToJ kv.2)], rest)
        simp only [parseMembersAux, hm, skipJsonWs_nonws '\x7d' _ (by decide)]
        simp
      | cons kv2 o'' =>
        have hsplit : serMembers (kv :: kv2 :: o'') ++ '\x7d' :: rest
            = serMember kv ++ ',' :: (serMembers (kv2 :: o'') ++ '\x7d' :: rest) := by
          show (serMember kv ++ ',' :: serMembers (kv2 :: o'')) ++ '\x7d' :: rest = _
          simp [List.append_assoc]
        rw [hsplit]
        have hm := parseMember_rt kv.1 kv.2
          (',' :: (serMembers (kv2 :: o'') ++ '\x7d' :: rest)) hkv.1 hkv.2
          (numBoundary_comma _)
        simp only [parseMembersAux, hm, skipJsonWs_nonws ',' _ (by decide),
          if_pos rfl]
        rw [ih n rest (fun kv3 h3 => hg kv3 (List.mem_cons_of_mem kv h3))
          (by simp) (by simp only [List.length_cons] at hlen ⊢; omega)]
        simp

/-- Without a closing brace in the input the member loop fails. -/
theorem parseMembersAux_none (pv : List Char → Option (JVal × List Char))
    (hpv : ∀ cs v rem, pv cs = some (v, rem) → rem <:+ cs) :
    ∀ fuel cs, '\x7d' ∉ cs → parseMembersAux pv fuel cs = none := by
  intro fuel
  induction fuel with
  | zero => intro cs _; rfl
  | succ n ih =>
    intro cs hb
    rcases hm : parseMember pv cs with - | ⟨kv, rem⟩
    · simp [parseMembersAux, hm]
    · simp only [parseMembersAux, hm]
      rcases hs : skipJsonWs rem with - | ⟨x, rem2⟩
      · simp [hs]
      · simp only [hs]
        have hxrem : x :: rem2 <:+ cs := by
          have h1 := skipJsonWs_suffix rem
          rw [hs] at h1
          exact h1.trans (parseMember_suffix pv hpv cs kv rem hm)
        have hx : x ≠ '\x7d' :=
          fun he => hb (hxrem.subset (he ▸ List.mem_cons_self x rem2))
        by_cases hc : x = ','
        · rw [if_pos hc,
            ih rem2 (fun hmem => hb (hxrem.subset (List.mem_cons_of_mem x hmem)))]
        · rw [if_neg hc, if_neg hx]

/-- Reduction of the object parser on a brace-headed input whose first
non-whitespace body character is not the closing brace. -/
theorem parseObjWith_body (pv : List Char → Option (JVal × List Char))
    (X : List Char) (d : Char) (rem : List Char)
    (hskip : skipJsonWs X = d :: rem) (hd : d ≠ '\x7d') :
    parseObjWith pv ('\x7b' :: X)
      = match parseMembersAux pv ((d :: rem).length + 1) (d :: rem) with
        | some (kvs, rem2) => some (JVal.jobj kvs, rem2)
        | none => none := by
  have h1 : parseObjWith pv ('\x7b' :: X)
      = (match skipJsonWs X with
        | [] => none
        | d' :: rem' =>
          if d' = '\x7d' then some (.jobj [], rem')
          else
            match parseMembersAux pv ((d' :: rem').length + 1) (d' :: rem') with
            | some (kvs, rem2) => some (.jobj kvs, rem2)
            | none => none) := rfl
  rw [h1, hskip]
  show (if d = '\x7d' then some (JVal.jobj [], rem)
    else
      match parseMembersAux pv ((d :: rem).length + 1) (d :: rem) with
      | some (kvs, rem2) => some (JVal.jobj kvs, rem2)
      | none => none) = _
  rw [if_neg hd]

/-- Reduction of the array parser on a bracket-headed input whose first
non-whitespace body character is not the closing bracket. -/
theorem parseArrWith_body (pe : List Char → Option (JVal × List Char))
    (X : List Char) (d : Char) (rem : List Char)
    (hskip : skipJsonWs X = d :: rem) (hd : d ≠ ']') :
    parseArrWith pe ('[' :: X)
      = match parseElemsAux pe ((d :: rem).length + 1) (d :: rem) with
        | some (vs, rem2) => some (JVal.jarr vs, rem2)
        | none => none := by
  have h1 : parseArrWith pe ('[' :: X)
      = (match skipJsonWs X with
        | [] => none
        | d' :: rem' =>
          if d' = ']' then some (.jarr [], rem')
          else
            match parseElemsAux pe ((d' :: rem').length + 1) (d' :: rem') with
            | some (vs, rem2) => some (.jarr vs, rem2)
            | none => none) := rfl
  rw [h1, hskip]
  show (if d = ']' then some (JVal.jarr [], rem)
    else
      match parseElemsAux pe ((d :: rem).length + 1) (d :: rem) with
      | some (vs, rem2) => some (JVal.jarr vs, rem2)
      | none => none) = _
  rw [if_neg hd]

/-- Round trip for a serialized non-empty flat object. -/
theorem parseFlatObj_rt (o : SObj) (rest : List Char)
    (hg : ∀ kv ∈ o, GoodStr kv.1 ∧ GoodSVal kv.2) (hne : o ≠ []) :
    parseFlatObj (serSObj o ++ rest) = some (sobjToJ o, rest) := by
  rcases o with - | ⟨kv, o'⟩
  · exact absurd rfl hne
  · obtain ⟨t, ht⟩ := serMembers_cons kv o'
    have hser : serSObj (kv :: o') ++ rest
        = '\x7b' :: (serMembers (kv :: o') ++ '\x7d' :: rest) := by
      simp [serSObj]
    have hbody : serMembers (kv :: o') ++ '\x7d' :: rest
        = '"' :: (t ++ '\x7d' :: rest) := by
      rw [ht]
      rfl
    have hskip : skipJsonWs (serMembers (kv :: o') ++ '\x7d' :: rest)
        = '"' :: (t ++ '\x7d' :: rest) := by
      rw [hbody]
      exact skipJsonWs_nonws '"' _ (by decide)
    rw [hser]
    show parseObjWith parseScalar _ = _
    rw [parseObjWith_body parseScalar _ '"' (t ++ '\x7d' :: rest) hskip (by decide),
      ← hbody,
      parseMembersAux_rt (kv :: o') _ rest hg (by simp)
        (by
          have h1 := length_serMembers (kv :: o')
          simp only [List.length_append, List.length_cons] at h1 ⊢
          omega)]
    rfl

/-- A truncated object body without its closing brace never parses. -/
theorem parseFlatObj_none (p' : List Char) (hb : '\x7d' ∉ p') :
    parseFlatObj ('\x7b' :: p') = none := by
  show parseObjWith parseScalar _ = _
  rcases hs : skipJsonWs p' with - | ⟨d, rem⟩
  · have h1 : parseObjWith parseScalar ('\x7b' :: p')
        = (match skipJsonWs p' with
          | [] => none
          | d' :: rem' =>
            if d' = '\x7d' then some (.jobj [], rem')
            else
              match parseMembersAux parseScalar ((d' :: rem').length + 1) (d' :: rem') with
              | some (kvs, rem2) => some (.jobj kvs, rem2)
              | none => none) := rfl
    rw [h1, hs]
  · have hdrem : d :: rem <:+ p' := hs ▸ skipJsonWs_suffix p'
    have hd : d ≠ '\x7d' :=
      fun he => hb (hdrem.subset (he ▸ List.mem_cons_self d rem))
    rw [parseObjWith_body parseScalar p' d rem hs hd,
      parseMembersAux_none parseScalar parseScalar_suffix _ _
        (fun hmem => hb (hdrem.subset hmem))]

end JsonObjectLemmas

section JsonElemLemmas

/-- A serialized object element parses as a flat object. -/
theorem parseElem1_obj (o : SObj) (rest : List Char)
    (hg : ∀ kv ∈ o, GoodStr kv.1 ∧ GoodSVal kv.2) (hne : o ≠ []) :
    parseElem1 (serSObj o ++ rest) = some (sobjToJ o, rest) := by
  have hser : serSObj o ++ rest = '\x7b' :: (serMembers o ++ '\x7d' :: rest) := by
    simp [serSObj]
  rw [hser]
  show (if ('\x7b' : Char) = '\x7b' then
      parseFlatObj ('\x7b' :: (serMembers o ++ '\x7d' :: rest))
    else parseScalar ('\x7b' :: (serMembers o ++ '\x7d' :: rest))) = _
  rw [if_pos rfl, ← hser]
  exact parseFlatObj_rt o rest hg hne

/-- A list headed by a brace is untouched by the whitespace skip. -/
theorem skip_id_of_head_brace (T : List Char) (h : ∃ Y, T = '\x7b' :: Y) :
    skipJsonWs T = T := by
  obtain ⟨Y, rfl⟩ := h
  exact skipJsonWs_nonws _ _ (by decide)

/-- A non-empty serialized object list starts with a brace. -/
theorem serObjs_head (o : SObj) (os' : List SObj) (X : List Char) :
    ∃ Y, serObjs (o :: os') ++ X = '\x7b' :: Y := by
  cases os' with
  | nil =>
    exact ⟨serMembers o ++ '\x7d' :: X, by simp [serObjs, serSObj]⟩
  | cons o2 os'' =>
    refine ⟨(serMembers o ++ '\x7d' :: (',' :: serObjs (o2 :: os''))) ++ X, ?_⟩
    show (serSObj o ++ ',' :: serObjs (o2 :: os'')) ++ X = _
    simp [serSObj]

/-- Round trip for the element loop on serialized objects followed by the
closing bracket. -/
theorem parseElemsAux_rt (os : List SObj) :
    ∀ fuel rest, (∀ o ∈ os, GoodObj o) → os ≠ [] → os.length ≤ fuel →
      parseElemsAux parseElem1 fuel (serObjs os ++ ']' :: rest)
        = some (os.map sobjToJ, rest) := by
  induction os with
  | nil => intro fuel rest _ hne _; exact absurd rfl hne
  | cons o os' ih =>
    intro fuel rest hg _ hlen
    cases fuel with
    | zero => simp at hlen
    | succ n =>
      have hgo := hg o (List.mem_cons_self o os')
      cases os' with
      | nil =>
        have he := parseElem1_obj o (']' :: rest) hgo.2 hgo.1
        show parseElemsAux parseElem1 (n + 1) (serSObj o ++ ']' :: rest)
            = some ([sobjToJ o], rest)
        simp only [parseElemsAux, he, skipJsonWs_nonws ']' _ (by decide)]
        simp
      | cons o2 os'' =>
        have hsplit : serObjs (o :: o2 :: os'') ++ ']' :: rest
            = serSObj o ++ ',' :: (serObjs (o2 :: os'') ++ ']' :: rest) := by
          show (serSObj o ++ ',' :: serObjs (o2 :: os'')) ++ ']' :: rest = _
          simp [List.append_assoc]
        rw [hsplit]
        have he := parseElem1_obj o (',' :: (serObjs (o2 :: os'') ++ ']' :: rest))
          hgo.2 hgo.1
        simp only [parseElemsAux, he, skipJsonWs_nonws ',' _ (by decide), if_pos rfl]
        rw [skip_id_of_head_brace _ (serObjs_head o2 os'' _),
          ih n rest (fun o3 h3 => hg o3 (List.mem_cons_of_mem o h3)) (by simp)
            (by simp only [List.length_cons] at hlen ⊢; omega)]
        simp

/-- The element loop fails on a truncation prefix (with leading whitespace
skipped, as the loop does after a comma). -/
theorem parseElemsAux_prefix_none (p : List Char) (hp : TruncPrefix p) :
    ∀ fuel, parseElemsAux parseElem1 fuel (skipJsonWs p) = none := by
  obtain ⟨hb, hshape⟩ := hp
  intro fuel
  rcases hshape with rfl | ⟨p', rfl⟩
  · cases fuel with
    | zero => rfl
    | succ n => rfl
  · rw [skipJsonWs_nonws _ _ (by decide)]
    cases fuel with
    | zero => rfl
    | succ n =>
      have h1 : parseElem1 ('\x7b' :: p') = none := by
        show (if ('\x7b' : Char) = '\x7b' then parseFlatObj ('\x7b' :: p')
          else parseScalar ('\x7b' :: p')) = none
        rw [if_pos rfl]
        exact parseFlatObj_none p' (fun hm => hb (List.mem_cons_of_mem _ hm))
      simp only [parseElemsAux, h1]

/-- The element loop fails on serialized objects followed by a comma and a
truncation prefix: the incomplete final object can never close. -/
theorem parseElemsAux_trunc_none (os : List SObj) :
    ∀ fuel p, (∀ o ∈ os, GoodObj o) → os ≠ [] → TruncPrefix p →
      parseElemsAux parseElem1 fuel (serObjs os ++ ',' :: p) = none := by
  induction os with
  | nil => intro fuel p _ hne _; exact absurd rfl hne
  | cons o os' ih =>
    intro fuel p hg _ hp
    cases fuel with
    | zero => rfl
    | succ n =>
      have hgo := hg o (List.mem_cons_self o os')
      cases os' with
      | nil =>
        have he := parseElem1_obj o (',' :: p) hgo.2 hgo.1
        show parseElemsAux parseElem1 (n + 1) (serSObj o ++ ',' :: p) = none
        simp only [parseElemsAux, he, skipJsonWs_nonws ',' _ (by decide), if_pos rfl]
        rw [parseElemsAux_prefix_none p ⟨hp.1, hp.2⟩ n]
        simp
      | cons o2 os'' =>
        have hsplit : serObjs (o :: o2 :: os'') ++ ',' :: p
            = serSObj o ++ ',' :: (serObjs (o2 :: os'') ++ ',' :: p) := by
          show (serSObj o ++ ',' :: serObjs (o2 :: os'')) ++ ',' :: p = _
          simp [List.append_assoc]
        rw [hsplit]
        have he := parseElem1_obj o (',' :: (serObjs (o2 :: os'') ++ ',' :: p))
          hgo.2 hgo.1
        simp only [parseElemsAux, he, skipJsonWs_nonws ',' _ (by decide), if_pos rfl]
        rw [skip_id_of_head_brace _ (serObjs_head o2 os'' _),
          ih n p (fun o3 h3 => hg o3 (List.mem_cons_of_mem o h3)) (by simp) hp]
        simp

end JsonElemLemmas

section JsonTopLemmas

/-- The explicit characters of the wrapper opening. -/
theorem serWrapperPrefix_eq :
    serWrapperPrefix = '\x7b' :: '"' :: (transactionsLit ++ '"' :: ':' :: ['[']) := by
  decide

/-- An object list is no longer than its serialization. -/
theorem length_serObjs (os : List SObj) : os.length ≤ (serObjs os).length := by
  induction os with
  | nil => simp [serObjs]
  | cons o os' ih =>
    cases os' with
    | nil => simp [serObjs, serSObj]
    | cons o2 os'' =>
      show (o :: o2 :: os'').length ≤ (serSObj o ++ ',' :: serObjs (o2 :: os'')).length
      simp only [List.length_cons, List.length_append, serSObj] at ih ⊢
      omega

/-- A non-empty serialized object list ends with the closing brace. -/
theorem serObjs_ends_brace (os : List SObj) (hne : os ≠ []) :
    ∃ B, serObjs os = B ++ ['\x7d'] := by
  induction os with
  | nil => exact absurd rfl hne
  | cons o os' ih =>
    cases os' with
    | nil => exact ⟨'\x7b' :: serMembers o, by simp [serObjs, serSObj]⟩
    | cons o2 os'' =>
      obtain ⟨B', hB'⟩ := ih (by simp)
      refine ⟨serSObj o ++ ',' :: B', ?_⟩
      show serSObj o ++ ',' :: serObjs (o2 :: os'') = _
      rw [hB']
      simp

/-- The last occurrence found in the tail wins. -/
theorem cutLast_append (pat a b r : List Char) (h : cutLast pat b = some r) :
    cutLast pat (a ++ b) = some (a ++ r) := by
  induction a with
  | nil => simpa using h
  | cons x a' ih =>
    show cutLast pat (x :: (a' ++ b)) = some (x :: (a' ++ r))
    simp only [cutLast, ih]

/-- Without its first character the pattern never occurs. -/
theorem cutLast_none_of_head_not_mem (x : Char) (pat' cs : List Char)
    (h : x ∉ cs) : cutLast (x :: pat') cs = none := by
  induction cs with
  | nil => rfl
  | cons c rest ih =>
    have h1 : x ∉ rest := fun hm => h (List.mem_cons_of_mem c hm)
    have hc : (x == c) = false :=
      beq_eq_false_iff_ne.2 (fun he => h (he ▸ List.mem_cons_self c rest))
    simp only [cutLast, ih h1, List.isPrefixOf, hc, Bool.false_and, if_false]
    rfl

/-- The brace-comma cut on a separator followed by brace-free text keeps
exactly the text through the brace. -/
theorem cutLast_sep (p : List Char) (hb : '\x7d' ∉ p) :
    cutLast ['\x7d', ','] ('\x7d' :: ',' :: p) = some ['\x7d'] := by
  have h1 : cutLast ['\x7d', ','] (',' :: p) = none :=
    cutLast_none_of_head_not_mem '\x7d' [','] (',' :: p) (by
      intro hm
      rcases List.mem_cons.1 hm with he | hm2
      · exact absurd he (by decide)
      · exact hb hm2)
  show (match cutLast ['\x7d', ','] (',' :: p) with
    | some r => some ('\x7d' :: r)
    | none =>
      if ['\x7d', ','].isPrefixOf ('\x7d' :: ',' :: p) = true then some ['\x7d']
      else none) = some ['\x7d']
  rw [h1, if_pos (by simp [List.isPrefixOf])]

/-- A list is a prefix of itself with anything appended. -/
theorem isPrefixOf_append_self (a b : List Char) : a.isPrefixOf (a ++ b) = true := by
  induction a with
  | nil => simp [List.isPrefixOf]
  | cons x a' ih => simp [List.isPrefixOf, ih]

/-- Containment from an initial match. -/
theorem hasSubstr_of_isPrefixOf (pat cs : List Char)
    (h : pat.isPrefixOf cs = true) : hasSubstr pat cs = true := by
  cases cs with
  | nil => simpa [hasSubstr] using h
  | cons c rest => simp [hasSubstr, h]

/-- Containment is preserved by extending the text to the left. -/
theorem hasSubstr_cons_of (pat : List Char) (c : Char) (rest : List Char)
    (h : hasSubstr pat rest = true) : hasSubstr pat (c :: rest) = true := by
  simp [hasSubstr, h]

/-- Every truncated wrapper response contains the `transactions` substring. -/
theorem hasSubstr_wrapperTrunc (os : List SObj) (m : Nat) (p : List Char) :
    hasSubstr transactionsLit (wrapperTrunc os m p) = true := by
  have h : wrapperTrunc os m p
      = '\x7b' :: '"' :: (transactionsLit
          ++ ('"' :: ':' :: '[' :: (serObjs (os.take m) ++ ',' :: p))) := by
    unfold wrapperTrunc
    rw [serWrapperPrefix_eq]
    simp
  rw [h]
  exact hasSubstr_cons_of _ _ _ (hasSubstr_cons_of _ _ _
    (hasSubstr_of_isPrefixOf _ _ (isPrefixOf_append_self _ _)))

/-- The repair of a truncated wrapper response: cut back to the last
complete object and re-close the array and the object. -/
theorem fixTruncatedJson_wrapperTrunc (os : List SObj) (m : Nat) (p : List Char)
    (hm1 : 1 ≤ m) (hmlt : m < os.length) (hp : TruncPrefix p) :
    fixTruncatedJson (wrapperTrunc os m p)
      = some (serWrapperPrefix ++ serObjs (os.take m) ++ (']' :: '\n' :: ['\x7d'])) := by
  have htake : os.take m ≠ [] := by
    cases os with
    | nil => simp at hmlt
    | cons o os' =>
      cases m with
      | zero => simp at hm1
      | succ k => simp
  obtain ⟨B, hB⟩ := serObjs_ends_brace (os.take m) htake
  have htr : wrapperTrunc os m p = (serWrapperPrefix ++ B) ++ ('\x7d' :: ',' :: p) := by
    unfold wrapperTrunc
    rw [hB]
    simp [List.append_assoc]
  have hcut : cutLast ['\x7d', ','] (wrapperTrunc os m p)
      = some ((serWrapperPrefix ++ B) ++ ['\x7d']) := by
    rw [htr]
    exact cutLast_append _ _ _ _ (cutLast_sep p hp.1)
  simp only [fixTruncatedJson, hcut, hasSubstr_wrapperTrunc, if_true]
  rw [hB]
  simp [List.append_assoc]

/-- Without a closing brace anywhere the repair raises its `ValueError`. -/
theorem fixTruncatedJson_none (t : List Char) (hb : '\x7d' ∉ t) :
    fixTruncatedJson t = none := by
  have h1 : cutLast ['\x7d', ','] t = none :=
    cutLast_none_of_head_not_mem '\x7d' [','] t hb
  have h2 : cutLast ['\x7d'] t = none :=
    cutLast_none_of_head_not_mem '\x7d' [] t hb
  simp [fixTruncatedJson, h1, h2]

/-- The proper prefixes of a serialized good object are exactly the
truncation prefixes the repair analysis needs. -/
theorem truncPrefix_of_proper_prefix (o : SObj) (hg : GoodObj o) (p : List Char)
    (hp : p <+: serSObj o) (hpne : p ≠ serSObj o) : TruncPrefix p := by
  have hnb : '\x7d' ∉ '\x7b' :: serMembers o := by
    intro hm
    rcases List.mem_cons.1 hm with he | hm2
    · exact absurd he (by decide)
    · exact brace_not_mem_serMembers o hg.2 hm2
  have hform : serSObj o = ('\x7b' :: serMembers o) ++ ['\x7d'] := by
    simp [serSObj]
  have hlt : p.length < (serSObj o).length := by
    rcases Nat.lt_or_ge p.length (serSObj o).length with h | h
    · exact h
    · have hle := hp.length_le
      have heq : p.length = (serSObj o).length := le_antisymm hle h
      exact absurd (hp.eq_of_length heq) hpne
  have hle2 : p.length ≤ ('\x7b' :: serMembers o).length := by
    rw [hform] at hlt
    simp only [List.length_append, List.length_singleton] at hlt
    omega
  have hp2 : p <+: ('\x7b' :: serMembers o) := by
    have h1 : p = (serSObj o).take p.length := List.prefix_iff_eq_take.1 hp
    rw [hform, List.take_append_of_le_length hle2] at h1
    rw [h1]
    exact List.take_prefix _ _
  refine ⟨fun hm => hnb (hp2.subset hm), ?_⟩
  rcases p with - | ⟨c, p'⟩
  · exact Or.inl rfl
  · refine Or.inr ⟨p', ?_⟩
    rcases hp2 with ⟨t2, ht2⟩
    rw [List.cons_append] at ht2
    injection ht2 with hhead htail
    rw [hhead]

end JsonTopLemmas

section JsonAssemblyLemmas

/-- The characters of the key literal are good string characters. -/
theorem transactionsLit_good : ∀ c ∈ transactionsLit, c ≠ '"' ∧ c ≠ '\\' := by
  decide

/-- Parse of the wrapper's single member over a serialized object array. -/
theorem parseMember_wrapper (os : List SObj) (tl : List Char)
    (hg : ∀ o ∈ os, GoodObj o) (hne : os ≠ []) :
    parseMember parseVal1
      ('"' :: (transactionsLit ++ '"' :: ':' :: ('[' :: (serObjs os ++ ']' :: tl))))
      = some (("transactions", .jarr (os.map sobjToJ)), tl) := by
  have hsb : parseStringBody
      (transactionsLit ++ '"' :: ':' :: ('[' :: (serObjs os ++ ']' :: tl)))
      = some (transactionsLit, ':' :: ('[' :: (serObjs os ++ ']' :: tl))) :=
    parseStringBody_rt transactionsLit _ transactionsLit_good
  rcases os with _ | ⟨o, os'⟩
  · exact absurd rfl hne
  obtain ⟨Y, hY⟩ := serObjs_head o os' (']' :: tl)
  have hskipI : skipJsonWs (serObjs (o :: os') ++ ']' :: tl) = '\x7b' :: Y := by
    rw [hY]
    exact skipJsonWs_nonws _ _ (by decide)
  have harr : parseArrWith parseElem1 ('[' :: (serObjs (o :: os') ++ ']' :: tl))
      = some (.jarr ((o :: os').map sobjToJ), tl) := by
    rw [parseArrWith_body parseElem1 _ '\x7b' Y hskipI (by decide), ← hY,
      parseElemsAux_rt (o :: os') _ tl hg (by simp)
        (by
          have h1 := length_serObjs (o :: os')
          simp only [List.length_append, List.length_cons] at h1 ⊢
          omega)]
  have hval : parseVal1 ('[' :: (serObjs (o :: os') ++ ']' :: tl))
      = some (.jarr ((o :: os').map sobjToJ), tl) := by
    show (if ('[' : Char) = '\x7b' then
        parseFlatObj ('[' :: (serObjs (o :: os') ++ ']' :: tl))
      else if ('[' : Char) = '[' then
        parseArrWith parseElem1 ('[' :: (serObjs (o :: os') ++ ']' :: tl))
      else parseScalar ('[' :: (serObjs (o :: os') ++ ']' :: tl))) = _
    rw [if_neg (by decide), if_pos rfl]
    exact harr
  simp only [parseMember, skipJsonWs_nonws '"' _ (by decide), if_pos rfl, hsb]
  simp only [skipJsonWs_nonws ':' _ (by decide), if_pos rfl,
    skipJsonWs_nonws '[' _ (by decide), hval]
  rfl

/-- The member loop parses the repaired wrapper body: the single member, the
skipped newline and the final closing brace. -/
theorem parseMembersAux_wrapper (os : List SObj) (n : Nat)
    (hg : ∀ o ∈ os, GoodObj o) (hne : os ≠ []) :
    parseMembersAux parseVal1 (n + 1)
      ('"' :: (transactionsLit ++ '"' :: ':' ::
        ('[' :: (serObjs os ++ ']' :: ('\n' :: ['\x7d'])))))
      = some ([("transactions", .jarr (os.map sobjToJ))], []) := by
  have hm := parseMember_wrapper os ('\n' :: ['\x7d']) hg hne
  simp only [parseMembersAux, hm,
    show skipJsonWs ('\n' :: ['\x7d']) = ['\x7d'] from rfl]
  simp

/-- The repaired wrapper text parses to the wrapper object. -/
theorem jsonLoads_repaired (os : List SObj)
    (hg : ∀ o ∈ os, GoodObj o) (hne : os ≠ []) :
    jsonLoads ⟨serWrapperPrefix ++ serObjs os ++ (']' :: '\n' :: ['\x7d'])⟩
      = some (.jobj [("transactions", .jarr (os.map sobjToJ))]) := by
  have hT : serWrapperPrefix ++ serObjs os ++ (']' :: '\n' :: ['\x7d'])
      = '\x7b' :: ('"' :: (transactionsLit ++ '"' :: ':' ::
          ('[' :: (serObjs os ++ ']' :: ('\n' :: ['\x7d']))))) := by
    rw [serWrapperPrefix_eq]
    simp
  have hXskip : skipJsonWs ('"' :: (transactionsLit ++ '"' :: ':' ::
      ('[' :: (serObjs os ++ ']' :: ('\n' :: ['\x7d'])))))
      = '"' :: (transactionsLit ++ '"' :: ':' ::
        ('[' :: (serObjs os ++ ']' :: ('\n' :: ['\x7d'])))) :=
    skipJsonWs_nonws '"' _ (by decide)
  have hobj : parseObjWith parseVal1
      ('\x7b' :: ('"' :: (transactionsLit ++ '"' :: ':' ::
        ('[' :: (serObjs os ++ ']' :: ('\n' :: ['\x7d']))))))
      = some (.jobj [("transactions", .jarr (os.map sobjToJ))], []) := by
    rw [parseObjWith_body parseVal1 _ '"' _ hXskip (by decide),
      parseMembersAux_wrapper os _ hg hne]
  have htop : parseTopVal (serWrapperPrefix ++ serObjs os ++ (']' :: '\n' :: ['\x7d']))
      = some (.jobj [("transactions", .jarr (os.map sobjToJ))], []) := by
    rw [hT]
    show (if ('\x7b' : Char) = '\x7b' then
        parseObjWith parseVal1 ('\x7b' :: ('"' :: (transactionsLit ++ '"' :: ':' ::
          ('[' :: (serObjs os ++ ']' :: ('\n' :: ['\x7d']))))))
      else if ('\x7b' : Char) = '[' then
        parseArrWith parseElem1 ('\x7b' :: ('"' :: (transactionsLit ++ '"' :: ':' ::
          ('[' :: (serObjs os ++ ']' :: ('\n' :: ['\x7d']))))))
      else parseScalar ('\x7b' :: ('"' :: (transactionsLit ++ '"' :: ':' ::
          ('[' :: (serObjs os ++ ']' :: ('\n' :: ['\x7d']))))))) = _
    rw [if_pos rfl]
    exact hobj
  have hskipT : skipJsonWs (serWrapperPrefix ++ serObjs os ++ (']' :: '\n' :: ['\x7d']))
      = serWrapperPrefix ++ serObjs os ++ (']' :: '\n' :: ['\x7d']) :=
    skip_id_of_head_brace _ ⟨_, hT⟩
  show (match parseTopVal (skipJsonWs
      (serWrapperPrefix ++ serObjs os ++ (']' :: '\n' :: ['\x7d']))) with
    | some (v, rem) => if (skipJsonWs rem).isEmpty then some v else none
    | none => none) = _
  rw [hskipT, htop]
  rfl

/-- The truncated wrapper text does not parse. -/
theorem jsonLoads_trunc_none (os : List SObj) (m : Nat) (p : List Char)
    (hg : ∀ o ∈ os, GoodObj o) (hm1 : 1 ≤ m) (hmlt : m < os.length)
    (hp : TruncPrefix p) :
    jsonLoads ⟨wrapperTrunc os m p⟩ = none := by
  have hgt : ∀ o ∈ os.take m, GoodObj o := fun o ho => hg o (List.take_subset m os ho)
  have htake : os.take m ≠ [] := by
    cases os with
    | nil => simp at hmlt
    | cons o os' =>
      cases m with
      | zero => simp at hm1
      | succ k => simp
  have hT : wrapperTrunc os m p
      = '\x7b' :: ('"' :: (transactionsLit ++ '"' :: ':' ::
          ('[' :: (serObjs (os.take m) ++ ',' :: p)))) := by
    unfold wrapperTrunc
    rw [serWrapperPrefix_eq]
    simp
  rcases htk : os.take m with _ | ⟨o, os'⟩
  · exact absurd htk htake
  obtain ⟨Y, hY⟩ := serObjs_head o os' (',' :: p)
  have hskipI : skipJsonWs (serObjs (o :: os') ++ ',' :: p) = '\x7b' :: Y := by
    rw [hY]
    exact skipJsonWs_nonws _ _ (by decide)
  have harr : parseArrWith parseElem1 ('[' :: (serObjs (o :: os') ++ ',' :: p))
      = none := by
    rw [parseArrWith_body parseElem1 _ '\x7b' Y hskipI (by decide), ← hY,
      parseElemsAux_trunc_none (o :: os') _ p (htk ▸ hgt) (by simp) hp]
  have hval : parseVal1 ('[' :: (serObjs (o :: os') ++ ',' :: p)) = none := by
    show (if ('[' : Char) = '\x7b' then
        parseFlatObj ('[' :: (serObjs (o :: os') ++ ',' :: p))
      else if ('[' : Char) = '[' then
        parseArrWith parseElem1 ('[' :: (serObjs (o :: os') ++ ',' :: p))
      else parseScalar ('[' :: (serObjs (o :: os') ++ ',' :: p))) = none
    rw [if_neg (by decide), if_pos rfl]
    exact harr
  have hsb : parseStringBody
      (transactionsLit ++ '"' :: ':' :: ('[' :: (serObjs (o :: os') ++ ',' :: p)))
      = some (transactionsLit, ':' :: ('[' :: (serObjs (o :: os') ++ ',' :: p))) :=
    parseStringBody_rt transactionsLit _ transactionsLit_good
  have hmem : parseMember parseVal1
      ('"' :: (transactionsLit ++ '"' :: ':' ::
        ('[' :: (serObjs (o :: os') ++ ',' :: p)))) = none := by
    simp only [parseMember, skipJsonWs_nonws '"' _ (by decide), if_pos rfl, hsb]
    simp only [skipJsonWs_nonws ':' _ (by decide), if_pos rfl,
      skipJsonWs_nonws '[' _ (by decide), hval]
    simp
  have hloop : ∀ n, parseMembersAux parseVal1 n
      ('"' :: (transactionsLit ++ '"' :: ':' ::
        ('[' :: (serObjs (o :: os') ++ ',' :: p)))) = none := by
    intro n
    cases n with
    | zero => rfl
    | succ k => simp only [parseMembersAux, hmem]
  have hobj : parseObjWith parseVal1
      ('\x7b' :: ('"' :: (transactionsLit ++ '"' :: ':' ::
        ('[' :: (serObjs (o :: os') ++ ',' :: p))))) = none := by
    rw [parseObjWith_body parseVal1 _ '"' _ (skipJsonWs_nonws '"' _ (by decide))
      (by decide), hloop _]
  have htop : parseTopVal (wrapperTrunc os m p) = none := by
    rw [hT, htk]
    show (if ('\x7b' : Char) = '\x7b' then
        parseObjWith parseVal1 ('\x7b' :: ('"' :: (transactionsLit ++ '"' :: ':' ::
          ('[' :: (serObjs (o :: os') ++ ',' :: p)))))
      else if ('\x7b' : Char) = '[' then
        parseArrWith parseElem1 ('\x7b' :: ('"' :: (transactionsLit ++ '"' :: ':' ::
          ('[' :: (serObjs (o :: os') ++ ',' :: p)))))
      else parseScalar ('\x7b' :: ('"' :: (transactionsLit ++ '"' :: ':' ::
          ('[' :: (serObjs (o :: os') ++ ',' :: p)))))) = none
    rw [if_pos rfl]
    exact hobj
  have hskipT : skipJsonWs (wrapperTrunc os m p) = wrapperTrunc os m p :=
    skip_id_of_head_brace _ ⟨_, by rw [hT, htk]⟩
  show (match parseTopVal (skipJsonWs (wrapperTrunc os m p)) with
    | some (v, rem) => if (skipJsonWs rem).isEmpty then some v else none
    | none => none) = none
  rw [hskipT, htop]

/-- The wrapper object yields exactly its transaction rows. -/
theorem extractTransactions_wrapper (xs : List JVal) :
    extractTransactions (.jobj [("transactions", .jarr xs)]) = .ok xs := rfl

/-- Reduction of the response parser on the repair path. -/
theorem parseGptResponse_repair_eq (resp : GptResponse)
    (h1 : jsonLoads resp.content = none)
    (hfr : resp.finishReason = some "length")
    (fixed : List Char)
    (h2 : fixTruncatedJson resp.content.toList = some fixed) :
    parseGptResponse resp
      = (match jsonLoads ⟨fixed⟩ with
        | none => .error .jsonDecodeError
        | some data =>
          match extractTransactions data with
          | .error _ => .error .jsonDecodeError
          | .ok tx => .ok tx) := by
  unfold parseGptResponse
  rw [h1, hfr, if_pos rfl, h2]

/-- Reduction of the response parser when the repair itself fails. -/
theorem parseGptResponse_fail_eq (resp : GptResponse)
    (h1 : jsonLoads resp.content = none)
    (hfr : resp.finishReason = some "length")
    (h2 : fixTruncatedJson resp.content.toList = none) :
    parseGptResponse resp = .error .jsonDecodeError := by
  unfold parseGptResponse
  rw [h1, hfr, if_pos rfl, h2]

end JsonAssemblyLemmas

section JsonClaims

/-- C3 (corrected): for a wrapper-shaped response truncated strictly inside
object `m` (at least one complete object before the cut, the tail a proper
prefix of the next object's serialization, every object well formed), the
repair-then-parse path of `_parse_gpt_response` returns exactly the `m`
complete transactions; and when the truncated text holds no closing brace at
all (no complete object), the repair raises and the original
`json.JSONDecodeError` is re-raised.  The repair round-trip holds only for
the wrapper shape: a truncated bare-array response is repaired to valid JSON
whose top level is a list, on which `.get` raises, so the original decode
error is re-raised instead of the partial result (see the counterexample). -/
theorem truncation_repair_wrapper_roundtrip
    (os : List SObj) (m : Nat) (p : List Char)
    (hg : ∀ o ∈ os, GoodObj o) (hm1 : 1 ≤ m) (hmlt : m < os.length)
    (hpre : p <+: serSObj (os.get ⟨m, hmlt⟩))
    (hpne : p ≠ serSObj (os.get ⟨m, hmlt⟩)) :
    parseGptResponse ⟨⟨wrapperTrunc os m p⟩, some "length"⟩
        = .ok ((os.take m).map sobjToJ)
    ∧ ∀ t : List Char, '\x7d' ∉ t → jsonLoads ⟨t⟩ = none →
        parseGptResponse ⟨⟨t⟩, some "length"⟩ = .error .jsonDecodeError := by
  constructor
  · have hTP : TruncPrefix p :=
      truncPrefix_of_proper_prefix _ (hg _ (List.get_mem os m hmlt)) p hpre hpne
    have htake : os.take m ≠ [] := by
      cases os with
      | nil => simp at hmlt
      | cons o os' =>
        cases m with
        | zero => simp at hm1
        | succ k => simp
    have h1 : jsonLoads ⟨wrapperTrunc os m p⟩ = none :=
      jsonLoads_trunc_none os m p hg hm1 hmlt hTP
    have h2 : fixTruncatedJson (wrapperTrunc os m p)
        = some (serWrapperPrefix ++ serObjs (os.take m) ++ (']' :: '\n' :: ['\x7d'])) :=
      fixTruncatedJson_wrapperTrunc os m p hm1 hmlt hTP
    have h3 : jsonLoads ⟨serWrapperPrefix ++ serObjs (os.take m)
        ++ (']' :: '\n' :: ['\x7d'])⟩
        = some (.jobj [("transactions", .jarr ((os.take m).map sobjToJ))]) :=
      jsonLoads_repaired (os.take m)
        (fun o ho => hg o (List.take_subset m os ho)) htake
    rw [parseGptResponse_repair_eq ⟨⟨wrapperTrunc os m p⟩, some "length"⟩ h1 rfl _ h2,
      h3]
    rfl
  · intro t hb hnone
    exact parseGptResponse_fail_eq ⟨⟨t⟩, some "length"⟩ hnone rfl
      (fixTruncatedJson_none t hb)

/-- Witness for C3: two one-field objects, truncated just after the opening
brace of the second; the repair returns exactly the first object. -/
theorem truncation_repair_wrapper_roundtrip_witness :
    (∀ o ∈ ([[("a", SVal.num false ['1'])], [("b", SVal.num false ['2'])]] : List SObj),
        GoodObj o)
    ∧ (['\x7b'] <+: serSObj (([[("a", SVal.num false ['1'])],
        [("b", SVal.num false ['2'])]] : List SObj).get ⟨1, by decide⟩))
    ∧ (parseGptResponse
        ⟨⟨wrapperTrunc [[("a", SVal.num false ['1'])], [("b", SVal.num false ['2'])]]
            1 ['\x7b']⟩, some "length"⟩
          = .ok ((([[("a", SVal.num false ['1'])],
              [("b", SVal.num false ['2'])]] : List SObj).take 1).map sobjToJ)
      ∧ ∀ t : List Char, '\x7d' ∉ t → jsonLoads ⟨t⟩ = none →
          parseGptResponse ⟨⟨t⟩, some "length"⟩ = .error .jsonDecodeError) :=
  ⟨by decide, by decide,
    truncation_repair_wrapper_roundtrip
      [[("a", SVal.num false ['1'])], [("b", SVal.num false ['2'])]] 1 ['\x7b']
      (by decide) (by decide) (by decide) (by decide) (by decide)⟩

/-- Counterexample for C3 as stated: a bare-array response truncated
mid-object.  The repair produces valid JSON holding the one complete
transaction, yet `_parse_gpt_response` re-raises the original decode error
(the `.get` on the repaired list raises inside the `except` and line 214
re-raises `e`), so the partial result is never returned. -/
theorem truncation_repair_bare_array_cex :
    fixTruncatedJson ("[\x7b\"a\":1\x7d,\x7b\"b".toList)
        = some ("[\x7b\"a\":1\x7d]".toList)
    ∧ jsonLoads ⟨"[\x7b\"a\":1\x7d]".toList⟩
        = some (.jarr [.jobj [("a", .jnum 1)]])
    ∧ parseGptResponse ⟨⟨"[\x7b\"a\":1\x7d,\x7b\"b".toList⟩, some "length"⟩
        = .error .jsonDecodeError := by
  refine ⟨by with_unfolding_all rfl, by with_unfolding_all rfl, by with_unfolding_all rfl⟩

/-- C4 (code bug): line 166 calls `.get` on the decoded value before the
`isinstance(data, list)` check of line 167 can run, so a response whose
content is a valid JSON top-level array raises `AttributeError` instead of
being unified with the wrapper shape; only the wrapper object is accepted.
The theorem exhibits an array-shaped content that is valid JSON, shows the
parser raising `AttributeError` on it, and shows the same rows accepted
when wrapped. -/
theorem array_shape_attribute_error :
    jsonLoads ⟨"[\x7b\"date\":\"2024-01-01\"\x7d]".toList⟩
        = some (.jarr [.jobj [("date", .jstr "2024-01-01")]])
    ∧ parseGptResponse ⟨⟨"[\x7b\"date\":\"2024-01-01\"\x7d]".toList⟩, some "stop"⟩
        = .error .attributeError
    ∧ parseGptResponse
        ⟨⟨"\x7b\"transactions\":[\x7b\"date\":\"2024-01-01\"\x7d]\x7d".toList⟩,
          some "stop"⟩
        = .ok [.jobj [("date", .jstr "2024-01-01")]] := by
  refine ⟨by with_unfolding_all rfl, by with_unfolding_all rfl, by with_unfolding_all rfl⟩

end JsonClaims

end CashFlow
